import Mathlib

/-!
# Verification of `crack.c`, `binary_search.c` and `countsort.c`

Shallow embeddings of the three programs, the definitions of all three first and the
theorems after them, and the properties of them that the specification states.  The
larger part is the brute-force search of `crack.c`.

`crack.c` keeps a five byte buffer `key`, walks `i` from `1` to `maxTry - 1`, and for
every `i` runs a conversion loop that writes one alphabet symbol per base-53 digit of `i`
(least significant digit first, stopping at a zero digit) and calls `crypt` after every
single write.  The embedding threads the buffer and the log of `crypt` arguments through
both loops.
-/

namespace Crack

/-- The C string terminator. -/
abbrev NUL : Char := Char.ofNat 0

/-- Line 18: `string dict = "abc...XYZ"`. -/
def dict : List Char :=
  ['a', 'b', 'c', 'd', 'e', 'f', 'g', 'h', 'i', 'j', 'k', 'l', 'm',
   'n', 'o', 'p', 'q', 'r', 's', 't', 'u', 'v', 'w', 'x', 'y', 'z',
   'A', 'B', 'C', 'D', 'E', 'F', 'G', 'H', 'I', 'J', 'K', 'L', 'M',
   'N', 'O', 'P', 'Q', 'R', 'S', 'T', 'U', 'V', 'W', 'X', 'Y', 'Z']

/-- Line 19: `int dict_length = strlen(dict) + 1`. -/
def dict_length : Nat := dict.length + 1

/-- Line 20: `int maxTry = 9999999`. -/
def maxTry : Nat := 9999999

/-- Line 17: `char salt[3] = { '5', '0', '\0' }`, as the C string it holds. -/
def salt : List Char := ['5', '0']

/-- Line 16: `char key[5]`, all five bytes NUL. -/
def key0 : List Char := [NUL, NUL, NUL, NUL, NUL]

/-- The C string a buffer holds: the bytes before its first NUL.  A buffer without
any NUL holds no string: reading it as one runs past its last byte. -/
def cstr (buf : List Char) : Option (List Char) :=
  if NUL ∈ buf then some (buf.takeWhile (fun c => c != NUL)) else none

/-- How a run of `main` ends.  `found`, `exhausted` and `usage` are the three `return`
statements (lines 62, 68 and 13); the other two are the points where the C program
leaves defined behaviour. -/
inductive Outcome where
  /-- Line 61-62: the key is printed, `return 0`. -/
  | found (key : List Char)
  /-- Line 67-68: "No match found.", `return 1`. -/
  | exhausted
  /-- Line 12-13: "Usage: ./crack k", `return 1`. -/
  | usage
  /-- Line 59: `crypt` is handed a `key` buffer that has no NUL left in it. -/
  | overrun
  /-- Line 35: `key[index]` is written with `index` outside the buffer. -/
  | badWrite
  deriving DecidableEq, Repr

/-- The value `main` returns at each of its `return` statements. -/
def Outcome.status : Outcome → Option Nat
  | .found _ => some 0
  | .exhausted => some 1
  | .usage => some 1
  | .overrun => none
  | .badWrite => none

/-- What `main` prints at each of its `return` statements. -/
def Outcome.printed : Outcome → Option (List Char)
  | .found key => some (key ++ ['\n'])
  | .exhausted => some "No match found.\n".toList
  | .usage => some "Usage: ./crack k\n".toList
  | .overrun => none
  | .badWrite => none

/-- The mutable state of the search: the `key` buffer and the strings handed to `crypt`
so far, oldest first. -/
structure St where
  key : List Char
  calls : List (List Char)
  deriving DecidableEq, Repr

/-- Result of running a loop: it either falls through with a state, or `main` ends
inside it. -/
inductive Res where
  | cont (s : St)
  | ret (o : Outcome) (s : St)
  deriving DecidableEq, Repr

/-- Lines 28-64: the conversion loop `while (k > 0 && k % dict_length != 0)`, with the
`crypt` call and the comparison against `argv[1]` that sit inside it.  The first
argument bounds the number of iterations; `k` itself is always enough, since every
iteration replaces `k` by `k / dict_length`. -/
def whileLoop (crypt : List Char → List Char → List Char) (argv1 : List Char) :
    Nat → Nat → Nat → St → Res
  | 0, _, _, s => .cont s
  | fuel + 1, k, index, s =>
    if k > 0 ∧ k % dict_length ≠ 0 then
      let dict_index := k % dict_length
      if index < s.key.length then
        let key := s.key.set index (dict.getD (dict_index - 1) NUL)
        match cstr key with
        | none => .ret .overrun ⟨key, s.calls⟩
        | some str =>
          let s1 : St := ⟨key, s.calls ++ [str]⟩
          if crypt str salt = argv1 then .ret (.found str) s1
          else whileLoop crypt argv1 fuel (k / dict_length) (index + 1) s1
      else .ret .badWrite s
    else .cont s

/-- Lines 23-65: `for (int i = 1; i < maxTry; i++)`, as the number of iterations still
to run and the current `i`. -/
def forLoop (crypt : List Char → List Char → List Char) (argv1 : List Char) :
    Nat → Nat → St → Res
  | 0, _, s => .cont s
  | n + 1, i, s =>
    match whileLoop crypt argv1 i i 0 s with
    | .cont s1 => forLoop crypt argv1 n (i + 1) s1
    | .ret o s1 => .ret o s1

/-- A finished run: how it ended and every string it handed to `crypt`, in call order. -/
structure Run where
  outcome : Outcome
  calls : List (List Char)
  deriving DecidableEq, Repr

/-- Lines 8-69: `main`.  `crypt` is the hash oracle, `argv1` is `argv[1]` (read only
when `argc` is 2). -/
def main (crypt : List Char → List Char → List Char) (argc : Nat) (argv1 : List Char) :
    Run :=
  if argc ≠ 2 then ⟨.usage, []⟩
  else
    match forLoop crypt argv1 (maxTry - 1) 1 ⟨key0, []⟩ with
    | .cont s => ⟨.exhausted, s.calls⟩
    | .ret o s => ⟨o, s.calls⟩

/-- Lines 25-50: what the conversion loop does to `key`, the `crypt` call and comparison
of lines 59-63 left out.  The first argument bounds the number of iterations, as in
`whileLoop`. -/
def convert : Nat → Nat → Nat → List Char → List Char
  | 0, _, _, key => key
  | fuel + 1, k, index, key =>
    if k > 0 ∧ k % dict_length ≠ 0 then
      convert fuel (k / dict_length) (index + 1)
        (key.set index (dict.getD (k % dict_length - 1) NUL))
    else key

/-- The `key` buffer after `n` iterations of the outer loop, from `i` on, none of which
returned. -/
def forKeys : Nat → Nat → List Char → List Char
  | 0, _, key => key
  | n + 1, i, key => forKeys n (i + 1) (convert i i 0 key)

/-- The `key` buffer at the end of iteration `i` of a run that has not returned. -/
def keyAt (i : Nat) : List Char := forKeys i 1 key0

/-- The candidate of index `i`: the string the conversion loop leaves in `key` in
iteration `i`. -/
def decode (i : Nat) : Option (List Char) := cstr (keyAt i)

/-- Modelled from the spec: the inverse numeral mapping `encode` of the round-trip
property, which is not part of the source.  It reads a string as a bijective numeral
over the alphabet: base `A = 52`, the symbol `dict[j]` the digit `j + 1`, the first
symbol most significant. -/
def encode (s : List Char) : Nat :=
  s.foldl (fun acc c => acc * dict.length + (dict.indexOf c + 1)) 0

/-- Modelled from the spec: the total order on candidates of §4.1, which is not part of
the source: shorter strings first, and strings of equal length in the order of the
numerals they are under `encode`. -/
def precedes (a b : List Char) : Prop :=
  a.length < b.length ∨ (a.length = b.length ∧ encode a < encode b)

instance (a b : List Char) : Decidable (precedes a b) := by unfold precedes; infer_instance

/-! ## The written prefix of the key buffer

Throughout a run the buffer is a block of alphabet symbols followed by NULs.  The
analysis works with that block of symbols, the written prefix `w`. -/

/-- Every symbol of `w` is one of the 52 letters of `dict`. -/
def Valid (w : List Char) : Prop := ∀ c ∈ w, c ∈ dict

instance (w : List Char) : Decidable (Valid w) := by unfold Valid; infer_instance

/-- The five byte buffer whose written prefix is `w`. -/
def pad (w : List Char) : List Char := w ++ List.replicate (5 - w.length) NUL

/-- Writing `c` at position `index` of a written prefix: an overwrite inside the prefix,
an extension right behind it. -/
def put (w : List Char) (index : Nat) (c : Char) : List Char :=
  if index < w.length then w.set index c else w ++ [c]

/-- The symbol the loop body writes for the current `k`: `dict[k % dict_length - 1]`. -/
def sym (k : Nat) : Char := dict.getD (k % dict_length - 1) NUL

/-- The successive written prefixes one run of the conversion loop produces, one per
iteration of the loop body, when no comparison succeeds. -/
def convW : Nat → Nat → Nat → List Char → List (List Char)
  | 0, _, _, _ => []
  | fuel + 1, k, index, w =>
    if k > 0 ∧ k % dict_length ≠ 0 then
      put w index (sym k) :: convW fuel (k / dict_length) (index + 1) (put w index (sym k))
    else []

/-- The written prefix the conversion loop ends with. -/
def convEnd : Nat → Nat → Nat → List Char → List Char
  | 0, _, _, w => w
  | fuel + 1, k, index, w =>
    if k > 0 ∧ k % dict_length ≠ 0 then
      convEnd fuel (k / dict_length) (index + 1) (put w index (sym k))
    else w

/-- The successive written prefixes of `n` iterations of the outer loop, from `i` on. -/
def enumW : Nat → Nat → List Char → List (List Char)
  | 0, _, _ => []
  | n + 1, i, w => convW i i 0 w ++ enumW n (i + 1) (convEnd i i 0 w)

/-- The written prefix after `n` iterations of the outer loop, from `i` on. -/
def enumEnd : Nat → Nat → List Char → List Char
  | 0, _, w => w
  | n + 1, i, w => enumEnd n (i + 1) (convEnd i i 0 w)

/-- Handing the written prefixes `ws` to `crypt` one after the other, the way the loops
do: a prefix that fills the buffer ends the run in `overrun`, a prefix whose hash is
`argv1` ends it in `found`. -/
def scan (crypt : List Char → List Char → List Char) (argv1 : List Char) :
    List (List Char) → List Char → List (List Char) → Res
  | [], w, calls => .cont ⟨pad w, calls⟩
  | w1 :: ws, _, calls =>
    if w1.length < 5 then
      if crypt w1 salt = argv1 then .ret (.found w1) ⟨pad w1, calls ++ [w1]⟩
      else scan crypt argv1 ws w1 (calls ++ [w1])
    else .ret .overrun ⟨pad w1, calls⟩

/-- The repunit `1 + 53 + ... + 53^(m-1)`. -/
def rep : Nat → Nat
  | 0 => 0
  | m + 1 => rep m + 53 ^ m

/-- The order in which lengths are compared. -/
def LenLe (a b : List Char) : Prop := a.length ≤ b.length

/-- The index whose conversion spells `t`. -/
def enc : List Char → Nat
  | [] => 0
  | c :: cs => (dict.indexOf c + 1) + dict_length * enc cs

/-- Every written prefix of a run that is never stopped, in the order they arise. -/
def allW : List (List Char) := enumW (maxTry - 1) 1 []

/-- The base-`dict_length` digits of `k`, least significant first. -/
def digits : Nat → Nat → List Nat
  | 0, _ => []
  | fuel + 1, k => if k = 0 then [] else k % dict_length :: digits fuel (k / dict_length)

/-- No base-53 digit of `i` is zero. -/
def zeroFree (i : Nat) : Prop := ∀ d ∈ digits i i, d ≠ 0

instance (i : Nat) : Decidable (zeroFree i) := by unfold zeroFree; infer_instance

/-- Modelled from the spec: the conversion of §4.1, which the spec puts in place of the
source's.  The digits of the zero-less bijective base-`A` numeral of `index`, `A = 52`
the number of alphabet symbols, least significant first: take `index mod A`, treat a
remainder 0 as the digit `A` and subtract 1 before dividing, divide by `A`, repeat until
the quotient is 0. -/
def specDigits : Nat → Nat → List Nat
  | 0, _ => []
  | fuel + 1, index =>
    if index = 0 then []
    else if index % dict.length = 0 then
      dict.length :: specDigits fuel ((index - 1) / dict.length)
    else index % dict.length :: specDigits fuel (index / dict.length)

/-- Modelled from the spec: the candidate of §4.1, the digits mapped to
`alphabet[digit - 1]` and read most significant first. -/
def specDecode (index : Nat) : List Char :=
  ((specDigits index index).reverse).map (fun d => dict.getD (d - 1) NUL)

/-- The strings handed to `crypt` by the conversion loop for index `i`, started on the
buffer `key`, when no comparison succeeds. -/
def submits (key : List Char) (i : Nat) : List (List Char) :=
  match whileLoop (fun _ _ => []) ['x'] i i 0 ⟨key, []⟩ with
  | .cont s => s.calls
  | .ret _ s => s.calls

/-- Lines 28-50 with the base as a parameter: how many times the body of
`while (k > 0 && k % dl != 0) { ...; k = k / dl; ... }` is executed. -/
def bodyRuns (dl : Nat) : Nat → Nat → Nat
  | 0, _ => 0
  | fuel + 1, k => if k > 0 ∧ k % dl ≠ 0 then 1 + bodyRuns dl fuel (k / dl) else 0

/-- The candidate the digits of `i` spell: `dict[d - 1]` for each base-53 digit `d` of
`i`, least significant first. -/
def spell (i : Nat) : List Char := (digits i i).map (fun d => dict.getD (d - 1) NUL)

/-! ## The run on a flat memory

`whileLoop` ends a run at the first `crypt` call on a `key` without NUL, where C leaves
the behaviour undefined.  The second embedding below follows the run beyond that call on
a flat memory: `crypt` reads the five bytes of `key` and goes on through `beyond`, the
bytes that follow `key` in memory up to the first NUL among them.  Its theorems hold for
every `beyond`. -/

/-- The string `crypt` reads at `key` on a flat memory. -/
def readKey (beyond : List Char) (buf : List Char) : List Char :=
  match cstr buf with
  | some str => str
  | none => buf ++ beyond

/-- Lines 28-64 on a flat memory: `whileLoop`, with every `crypt` call carried out. -/
def whileLoopFlat (beyond : List Char) (crypt : List Char → List Char → List Char)
    (argv1 : List Char) : Nat → Nat → Nat → St → Res
  | 0, _, _, s => .cont s
  | fuel + 1, k, index, s =>
    if k > 0 ∧ k % dict_length ≠ 0 then
      let dict_index := k % dict_length
      if index < s.key.length then
        let key := s.key.set index (dict.getD (dict_index - 1) NUL)
        let str := readKey beyond key
        let s1 : St := ⟨key, s.calls ++ [str]⟩
        if crypt str salt = argv1 then .ret (.found str) s1
        else whileLoopFlat beyond crypt argv1 fuel (k / dict_length) (index + 1) s1
      else .ret .badWrite s
    else .cont s

/-- Lines 23-65 on a flat memory. -/
def forLoopFlat (beyond : List Char) (crypt : List Char → List Char → List Char)
    (argv1 : List Char) : Nat → Nat → St → Res
  | 0, _, s => .cont s
  | n + 1, i, s =>
    match whileLoopFlat beyond crypt argv1 i i 0 s with
    | .cont s1 => forLoopFlat beyond crypt argv1 n (i + 1) s1
    | .ret o s1 => .ret o s1

/-- Lines 8-69 on a flat memory. -/
def mainFlat (beyond : List Char) (crypt : List Char → List Char → List Char) (argc : Nat)
    (argv1 : List Char) : Run :=
  if argc ≠ 2 then ⟨.usage, []⟩
  else
    match forLoopFlat beyond crypt argv1 (maxTry - 1) 1 ⟨key0, []⟩ with
    | .cont s => ⟨.exhausted, s.calls⟩
    | .ret o s => ⟨o, s.calls⟩

/-- Lines 25-59 without the comparison: the strings `crypt` reads in one run of the
conversion loop, one per iteration of the loop body. -/
def convertCalls (beyond : List Char) : Nat → Nat → Nat → List Char → List (List Char)
  | 0, _, _, _ => []
  | fuel + 1, k, index, key =>
    if k > 0 ∧ k % dict_length ≠ 0 then
      readKey beyond (key.set index (dict.getD (k % dict_length - 1) NUL)) ::
        convertCalls beyond fuel (k / dict_length) (index + 1)
          (key.set index (dict.getD (k % dict_length - 1) NUL))
    else []

/-- The strings `crypt` reads in `n` iterations of the outer loop, from `i` on, none of
which returned. -/
def forCalls (beyond : List Char) : Nat → Nat → List Char → List (List Char)
  | 0, _, _ => []
  | n + 1, i, key => convertCalls beyond i i 0 key ++ forCalls beyond n (i + 1) (convert i i 0 key)

/-- The strings submitted for the indices `1 .. maxTry - 1`, in call order. -/
def submitted (beyond : List Char) : List (List Char) :=
  forCalls beyond (maxTry - 1) 1 key0

/-- What `crypt` reads of a buffer with the written prefix `w`. -/
def seen (beyond : List Char) (w : List Char) : List Char :=
  if w.length < 5 then w else w ++ beyond

/-- Handing the written prefixes `ws` to `crypt` one after the other on a flat memory. -/
def scanFlat (beyond : List Char) (crypt : List Char → List Char → List Char)
    (argv1 : List Char) : List (List Char) → List Char → List (List Char) → Res
  | [], w, calls => .cont ⟨pad w, calls⟩
  | w1 :: ws, _, calls =>
    if crypt (seen beyond w1) salt = argv1 then
      .ret (.found (seen beyond w1)) ⟨pad w1, calls ++ [seen beyond w1]⟩
    else scanFlat beyond crypt argv1 ws w1 (calls ++ [seen beyond w1])

end Crack

namespace BinarySearch

/-! # `binary_search.c`

The array argument `int values[]` is modelled as the memory it points to, a function from
positions to `int`s, of which the first `n` positions belong to the array.  A read
outside `[0, n)` and an `int` addition that leaves the 32-bit range end the call: both
are undefined behaviour in C. -/

/-- The largest `int`. -/
def INT_MAX : Int := 2147483647

/-- The smallest `int`. -/
def INT_MIN : Int := -2147483648

/-- How a call of `search` or `binary_search` ends. -/
inductive Result where
  /-- The call returns `b`. -/
  | ret (b : Bool)
  /-- Line 51: `values[mid]` is read with `mid` outside `[0, n)`. -/
  | outOfBounds (mid : Int)
  /-- Line 48 (or 33): the `int` arithmetic overflows. -/
  | overflow
  /-- The recursion is still going on at the given depth. -/
  | unfinished
  deriving DecidableEq, Repr

/-- Lines 46-68: `binary_search`.  The first argument bounds the depth of the recursion;
`/` on `int` truncates towards zero.  `mid - 1` and `mid + 1` are computed only after
`values[mid]` was read inside the array, so they cannot overflow. -/
def binary_search (value : Int) (values : Nat → Int) (n : Int) : Nat → Int → Int → Result
  | 0, _, _ => .unfinished
  | depth + 1, low, high =>
    if low + high < INT_MIN ∨ INT_MAX < low + high then .overflow
    else
      let mid := (low + high).tdiv 2
      if mid < 0 ∨ n ≤ mid then .outOfBounds mid
      else if values mid.toNat = value then .ret true
      else if values mid.toNat > value then binary_search value values n depth low (mid - 1)
      else binary_search value values n depth (mid + 1) high

/-- Lines 29-43: `search`. -/
def search (depth : Nat) (value : Int) (values : Nat → Int) (n : Int) : Result :=
  if n - 1 < INT_MIN then .overflow
  else
    match binary_search value values n depth 0 (n - 1) with
    | .ret true => .ret true
    | .ret false => .ret false
    | r => r

/-- Line 12: `int haystack[] = { 1, 2, 3, 4, 5, 6, 7, 8, 9 }`. -/
def haystack : Nat → Int := fun i => ([1, 2, 3, 4, 5, 6, 7, 8, 9] : List Int).getD i 0

/-- Lines 9-26: `main`, as its exit status; `none` when the call of `search` does not
return. -/
def main (depth : Nat) : Option Nat :=
  match search depth 8 haystack 9 with
  | .ret true => some 0
  | .ret false => some 1
  | _ => none

/-- The first `n` positions of `values` are in non-decreasing order. -/
def SortedUpTo (values : Nat → Int) (n : Int) : Prop :=
  ∀ i j : Nat, i ≤ j → (j : Int) < n → values i ≤ values j

end BinarySearch

namespace CountSort

/-! # `countsort.c`

`countArr` and `newArr` are arrays of `MAX` and of `n` `int`s.  `sort` returns the array `values` as the call leaves it, or `none` where the
C program leaves defined behaviour: a read outside `values`, an index outside `countArr`
or `newArr`, an `int` addition that overflows.  The `printf` calls are left out. -/

/-- Line 10: `const int MAX = 65536`. -/
def MAX : Nat := 65536

/-- The largest `int`. -/
def INT_MAX : Int := 2147483647

/-- Lines 29-33: `for (int k = 0; k < n; k++) countArr[values[k]]++`, as the number of
iterations still to run, the current `k` and `countArr`. -/
def countLoop (values : List Int) : Nat → Nat → Array Int → Option (Array Int)
  | 0, _, countArr => some countArr
  | rem + 1, k, countArr =>
    match values[k]? with
    | none => none
    | some v =>
      if v < 0 ∨ (countArr.size : Int) ≤ v then none
      else if INT_MAX ≤ countArr.getD v.toNat 0 then none
      else countLoop values rem (k + 1)
        (countArr.setD v.toNat (countArr.getD v.toNat 0 + 1))

/-- Lines 44-51: `for (int m = 1; m < MAX; m++) countArr[m] = countArr[m] + countArr[m-1]`. -/
def sumLoop : Nat → Nat → Array Int → Option (Array Int)
  | 0, _, countArr => some countArr
  | rem + 1, m, countArr =>
    if countArr.size ≤ m then none
    else if INT_MAX < countArr.getD m 0 + countArr.getD (m - 1) 0 then none
    else sumLoop rem (m + 1) (countArr.setD m (countArr.getD m 0 + countArr.getD (m - 1) 0))

/-- Lines 55-58: `for (int p = MAX - 1; p > 0; p--) countArr[p] = countArr[p-1]`, started
at `p`. -/
def shiftLoop : Nat → Array Int → Array Int
  | 0, countArr => countArr
  | p + 1, countArr => shiftLoop p (countArr.setD (p + 1) (countArr.getD p 0))

/-- Lines 72-77: `for (int r = 0; r < n; r++)`, which writes `values[r]` to
`newArr[countArr[values[r]]]` and increments that counter. -/
def placeLoop (values : List Int) :
    Nat → Nat → Array Int → Array Int → Option (Array Int)
  | 0, _, _, newArr => some newArr
  | rem + 1, r, countArr, newArr =>
    match values[r]? with
    | none => none
    | some v =>
      if v < 0 ∨ (countArr.size : Int) ≤ v then none
      else if countArr.getD v.toNat 0 < 0 ∨ (newArr.size : Int) ≤ countArr.getD v.toNat 0 then
        none
      else if INT_MAX ≤ countArr.getD v.toNat 0 then none
      else placeLoop values rem (r + 1)
        (countArr.setD v.toNat (countArr.getD v.toNat 0 + 1))
        (newArr.setD (countArr.getD v.toNat 0).toNat v)

/-- Lines 87-90: `for (int t = 0; t < n; t++) values[t] = newArr[t]`. -/
def copyLoop (newArr : Array Int) : Nat → Nat → List Int → Option (List Int)
  | 0, _, values => some values
  | rem + 1, t, values =>
    if t < values.length ∧ t < newArr.size then
      copyLoop newArr rem (t + 1) (values.set t (newArr.getD t 0))
    else none

/-- Lines 7-99: `sort`.  `junk` is what the uninitialised `newArr` holds when it is
declared. -/
def sort (junk : Nat → Int) (values : List Int) (n : Nat) : Option (List Int) :=
  match countLoop values n 0 (mkArray MAX 0) with
  | none => none
  | some c1 =>
    match sumLoop (MAX - 1) 1 c1 with
    | none => none
    | some c2 =>
      match placeLoop values n 0 ((shiftLoop (MAX - 1) c2).setD 0 0)
          (Array.ofFn (fun i : Fin n => junk i)) with
      | none => none
      | some newArr => copyLoop newArr n 0 values

/-- The number of entries of `values` below `j`. -/
def lt (values : List Int) (j : Nat) : Nat := values.countP (fun x => x < (j : Int))

/-- The sorted list that holds each `v < m` as often as `values` does. -/
def canon (values : List Int) : Nat → List Int
  | 0 => []
  | m + 1 => canon values m ++ List.replicate (values.count (m : Int)) (m : Int)

/-- All entries of `values` are indices of `countArr`. -/
def InRange (values : List Int) : Prop := ∀ v ∈ values, 0 ≤ v ∧ v < (MAX : Int)

end CountSort

namespace Crack

/-! ## Buffers and written prefixes -/

theorem NUL_not_mem_dict : NUL ∉ dict := by decide

theorem dict_length_eq : dict_length = 53 := by decide

theorem pad_length {w : List Char} (h : w.length ≤ 5) : (pad w).length = 5 := by
  simp [pad]; omega

theorem Valid.ne_NUL {w : List Char} (hv : Valid w) : ∀ c ∈ w, (c != NUL) = true := by
  intro c hc
  have h1 := hv c hc
  have h2 : c ≠ NUL := fun h => NUL_not_mem_dict (h ▸ h1)
  simpa using h2

theorem cstr_pad_lt {w : List Char} (hv : Valid w) (h : w.length < 5) :
    cstr (pad w) = some w := by
  obtain ⟨n, hn⟩ : ∃ n, 5 - w.length = n + 1 := ⟨4 - w.length, by omega⟩
  have hmem : NUL ∈ pad w := by
    simp [pad, hn, List.replicate_succ]
  have htw : (pad w).takeWhile (fun c => c != NUL) = w := by
    unfold pad
    rw [List.takeWhile_append_of_pos hv.ne_NUL, hn, List.replicate_succ]
    simp
  simp [cstr, hmem, htw]

theorem cstr_pad_ge {w : List Char} (hv : Valid w) (h : 5 ≤ w.length) :
    cstr (pad w) = none := by
  have h0 : 5 - w.length = 0 := by omega
  have hmem : NUL ∉ pad w := by
    simp only [pad, h0, List.replicate_zero, List.append_nil]
    exact fun hc => NUL_not_mem_dict (hv _ hc)
  simp [cstr, hmem]

theorem set_pad {w : List Char} {index : Nat} (c : Char) (hi : index ≤ w.length)
    (h5 : index < 5) : (pad w).set index c = pad (put w index c) := by
  unfold put pad
  by_cases h : index < w.length
  · simp [h, List.set_append_left]
  · have he : index = w.length := by omega
    subst he
    obtain ⟨n, hn⟩ : ∃ n, 5 - w.length = n + 1 := ⟨4 - w.length, by omega⟩
    have hn2 : 5 - (w.length + 1) = n := by omega
    simp [hn, hn2, List.replicate_succ]

theorem put_length (w : List Char) (index : Nat) (c : Char) (hi : index ≤ w.length) :
    (put w index c).length = max w.length (index + 1) := by
  unfold put
  split <;> simp <;> omega

theorem sym_mem {k : Nat} (h : k % dict_length ≠ 0) : sym k ∈ dict := by
  have h2 : k % dict_length < 53 := Nat.mod_lt _ (by decide)
  have key : ∀ d : Fin 53, d.val ≠ 0 → dict.getD (d.val - 1) NUL ∈ dict := by decide
  exact key ⟨k % dict_length, h2⟩ h

theorem put_valid {w : List Char} {index : Nat} {c : Char} (hv : Valid w) (hc : c ∈ dict) :
    Valid (put w index c) := by
  unfold put
  split
  · intro x hx
    rcases List.mem_or_eq_of_mem_set hx with h | h
    · exact hv x h
    · exact h ▸ hc
  · intro x hx
    rcases List.mem_append.mp hx with h | h
    · exact hv x h
    · simp at h; exact h ▸ hc

/-! ## The loops hand the written prefixes to `crypt` -/

theorem whileLoop_eq_scan (crypt : List Char → List Char → List Char) (argv1 : List Char) :
    ∀ (fuel k index : Nat) (w : List Char) (calls : List (List Char)),
      Valid w → w.length ≤ 5 → index ≤ w.length → k * 53 ^ index < 53 ^ 5 →
      whileLoop crypt argv1 fuel k index ⟨pad w, calls⟩ =
        scan crypt argv1 (convW fuel k index w) w calls
  | 0, k, index, w, calls, _, _, _, _ => by simp [whileLoop, convW, scan]
  | fuel + 1, k, index, w, calls, hv, h5, hi, hk => by
    by_cases hc : k > 0 ∧ k % dict_length ≠ 0
    · have hidx : index < 5 := by
        by_contra hge
        have h1 : 53 ^ 5 ≤ 53 ^ index := Nat.pow_le_pow_right (by decide) (by omega)
        have h2 : 53 ^ index ≤ k * 53 ^ index := Nat.le_mul_of_pos_left _ hc.1
        omega
      have hv1 : Valid (put w index (sym k)) := put_valid hv (sym_mem hc.2)
      have hl1 : (put w index (sym k)).length ≤ 5 := by
        rw [put_length _ _ _ hi]; omega
      have hi1 : index + 1 ≤ (put w index (sym k)).length := by
        rw [put_length _ _ _ hi]; omega
      have hk1 : k / dict_length * 53 ^ (index + 1) < 53 ^ 5 := by
        rw [dict_length_eq, pow_succ]
        calc k / 53 * (53 ^ index * 53) = (k / 53 * 53) * 53 ^ index := by ring
          _ ≤ k * 53 ^ index := Nat.mul_le_mul_right _ (Nat.div_mul_le_self k 53)
          _ < 53 ^ 5 := hk
      have ih := whileLoop_eq_scan crypt argv1 fuel (k / dict_length) (index + 1)
        (put w index (sym k)) (calls ++ [put w index (sym k)]) hv1 hl1 hi1 hk1
      have hset : (pad w).set index (dict.getD (k % dict_length - 1) NUL)
          = pad (put w index (sym k)) := set_pad _ hi hidx
      have hlen : index < (pad w).length := by rw [pad_length h5]; exact hidx
      rw [whileLoop, convW, if_pos hc, if_pos hc, scan]
      simp only [hlen, if_true, hset]
      by_cases h4 : (put w index (sym k)).length < 5
      · rw [cstr_pad_lt hv1 h4, if_pos h4]
        simp only []
        by_cases hh : crypt (put w index (sym k)) salt = argv1
        · rw [if_pos hh, if_pos hh]
        · rw [if_neg hh, if_neg hh, ih]
      · rw [cstr_pad_ge hv1 (by omega), if_neg h4]
    · rw [whileLoop, convW, if_neg hc, if_neg hc, scan]

theorem convW_getLastD : ∀ (fuel k index : Nat) (w : List Char),
    (convW fuel k index w).getLastD w = convEnd fuel k index w
  | 0, _, _, _ => rfl
  | fuel + 1, k, index, w => by
    by_cases hc : k > 0 ∧ k % dict_length ≠ 0
    · rw [convW, convEnd, if_pos hc, if_pos hc, List.getLastD_cons]
      exact convW_getLastD fuel _ _ _
    · rw [convW, convEnd, if_neg hc, if_neg hc]; rfl

theorem scan_append (crypt : List Char → List Char → List Char) (argv1 : List Char) :
    ∀ (l1 l2 : List (List Char)) (w : List Char) (calls : List (List Char)),
      scan crypt argv1 (l1 ++ l2) w calls =
        match scan crypt argv1 l1 w calls with
        | .cont s => scan crypt argv1 l2 (l1.getLastD w) s.calls
        | .ret o s => .ret o s
  | [], l2, w, calls => by simp [scan]
  | a :: l1, l2, w, calls => by
    rw [List.cons_append, scan, scan, List.getLastD_cons]
    by_cases h4 : a.length < 5
    · rw [if_pos h4, if_pos h4]
      by_cases hh : crypt a salt = argv1
      · rw [if_pos hh, if_pos hh]
      · rw [if_neg hh, if_neg hh]
        exact scan_append crypt argv1 l1 l2 a _
    · rw [if_neg h4, if_neg h4]

theorem scan_cont (crypt : List Char → List Char → List Char) (argv1 : List Char) :
    ∀ (l : List (List Char)) (w : List Char) (calls : List (List Char)) (s : St),
      scan crypt argv1 l w calls = .cont s → s = ⟨pad (l.getLastD w), calls ++ l⟩
  | [], w, calls, s, h => by
    simp only [scan, Res.cont.injEq] at h
    simp [← h]
  | a :: l, w, calls, s, h => by
    rw [scan] at h
    by_cases h4 : a.length < 5
    · rw [if_pos h4] at h
      by_cases hh : crypt a salt = argv1
      · rw [if_pos hh] at h; cases h
      · rw [if_neg hh] at h
        have := scan_cont crypt argv1 l a _ s h
        rw [this, List.getLastD_cons]
        simp
    · rw [if_neg h4] at h; cases h

/-! ## Bounds on the index that writes a given position

`rep m` is the smallest index with `m` non-zero low base-53 digits, `1 + 53 + ... +
53^(m-1)`: position `m - 1` of the buffer is not written before iteration `rep m`. -/

theorem rep_succ_mul (m : Nat) : rep (m + 1) = 1 + 53 * rep m := by
  induction m with
  | zero => rfl
  | succ m ih =>
    have h : rep (m + 1 + 1) = rep (m + 1) + 53 ^ (m + 1) := rfl
    have h1 : rep (m + 1) = rep m + 53 ^ m := rfl
    rw [h, ih, pow_succ]
    omega

theorem rep_mono {a b : Nat} (h : a ≤ b) : rep a ≤ rep b := by
  induction h with
  | refl => exact Nat.le_refl _
  | step _ ih => exact Nat.le_trans ih (Nat.le_add_right _ _)

theorem rep_lt_pow (m : Nat) : rep m < 53 ^ m := by
  induction m with
  | zero => decide
  | succ m ih =>
    have h : rep (m + 1) = rep m + 53 ^ m := rfl
    rw [h, pow_succ]; omega

theorem rep_length_le_five {m : Nat} (h : rep m < maxTry) : m ≤ 5 := by
  by_contra hm
  have h6 : rep 6 ≤ rep m := rep_mono (by omega)
  have : maxTry < rep 6 := by decide
  omega

theorem convW_inv (i : Nat) :
    ∀ (fuel k index : Nat) (w : List Char),
      Valid w → index ≤ w.length → rep index + k * 53 ^ index ≤ i → rep w.length ≤ i →
      (∀ x ∈ convW fuel k index w, Valid x ∧ x ≠ [] ∧ rep x.length ≤ i ∧
          w.length ≤ x.length ∧ x.length ≤ (convEnd fuel k index w).length) ∧
        List.Pairwise LenLe (convW fuel k index w) ∧
        Valid (convEnd fuel k index w) ∧ rep (convEnd fuel k index w).length ≤ i ∧
        w.length ≤ (convEnd fuel k index w).length
  | 0, k, index, w, hv, _, _, hr => by
    simp [convW, convEnd, hv, hr]
  | fuel + 1, k, index, w, hv, hi, hk, hr => by
    by_cases hc : k > 0 ∧ k % dict_length ≠ 0
    · have hv1 : Valid (put w index (sym k)) := put_valid hv (sym_mem hc.2)
      have hlen : (put w index (sym k)).length = max w.length (index + 1) :=
        put_length _ _ _ hi
      have hi1 : index + 1 ≤ (put w index (sym k)).length := by rw [hlen]; omega
      have hpow : 53 ^ index ≤ k * 53 ^ index := Nat.le_mul_of_pos_left _ hc.1
      have hrs : rep (index + 1) ≤ i := by
        have h : rep (index + 1) = rep index + 53 ^ index := rfl
        omega
      have hr1 : rep (put w index (sym k)).length ≤ i := by
        rw [hlen]
        rcases Nat.le_total w.length (index + 1) with h | h
        · rw [max_eq_right h]; exact hrs
        · rw [max_eq_left h]; exact hr
      have hk1 : rep (index + 1) + k / dict_length * 53 ^ (index + 1) ≤ i := by
        have h : rep (index + 1) = rep index + 53 ^ index := rfl
        have hd : k / 53 * 53 + 1 ≤ k := by
          have := Nat.div_add_mod k 53
          have h0 : k % 53 ≠ 0 := by simpa [dict_length_eq] using hc.2
          omega
        have hm : (k / 53 * 53 + 1) * 53 ^ index ≤ k * 53 ^ index :=
          Nat.mul_le_mul_right _ hd
        rw [dict_length_eq, h, pow_succ]
        calc rep index + 53 ^ index + k / 53 * (53 ^ index * 53)
            = rep index + (k / 53 * 53 + 1) * 53 ^ index := by ring
          _ ≤ rep index + k * 53 ^ index := Nat.add_le_add_left hm _
          _ ≤ i := hk
      obtain ⟨ih1, ih2, ih3, ih4, ih5⟩ := convW_inv i fuel (k / dict_length) (index + 1)
        (put w index (sym k)) hv1 hi1 hk1 hr1
      have hne : put w index (sym k) ≠ [] := by
        intro h0; rw [h0] at hi1; simp at hi1
      have hwl : w.length ≤ (put w index (sym k)).length := by rw [hlen]; omega
      rw [convW, convEnd, if_pos hc, if_pos hc]
      refine ⟨?_, ?_, ih3, ih4, Nat.le_trans hwl ih5⟩
      · intro x hx
        rcases List.mem_cons.mp hx with h | h
        · subst h; exact ⟨hv1, hne, hr1, hwl, ih5⟩
        · obtain ⟨a, b, c, d, e⟩ := ih1 x h
          exact ⟨a, b, c, Nat.le_trans hwl d, e⟩
      · exact List.pairwise_cons.mpr ⟨fun x hx => (ih1 x hx).2.2.2.1, ih2⟩
    · rw [convW, convEnd, if_neg hc, if_neg hc]
      simp [hv, hr]

theorem enumW_inv :
    ∀ (n i : Nat) (w : List Char), Valid w → rep w.length ≤ i →
      (∀ x ∈ enumW n i w, Valid x ∧ x ≠ [] ∧ rep x.length < i + n ∧
          w.length ≤ x.length ∧ x.length ≤ (enumEnd n i w).length) ∧
        List.Pairwise LenLe (enumW n i w) ∧
        Valid (enumEnd n i w) ∧ rep (enumEnd n i w).length ≤ i + n ∧
        w.length ≤ (enumEnd n i w).length
  | 0, i, w, hv, hr => by simp [enumW, enumEnd, hv, hr]
  | n + 1, i, w, hv, hr => by
    obtain ⟨c1, c2, c3, c4, c5⟩ := convW_inv i i i 0 w hv (Nat.zero_le _)
      (by simp [rep]) hr
    obtain ⟨e1, e2, e3, e4, e5⟩ := enumW_inv n (i + 1) (convEnd i i 0 w) c3
      (Nat.le_succ_of_le c4)
    rw [enumW, enumEnd]
    refine ⟨?_, ?_, e3, by omega, Nat.le_trans c5 e5⟩
    · intro x hx
      rcases List.mem_append.mp hx with h | h
      · obtain ⟨a, b, c, d, e⟩ := c1 x h
        exact ⟨a, b, by omega, d, Nat.le_trans e e5⟩
      · obtain ⟨a, b, c, d, e⟩ := e1 x h
        exact ⟨a, b, by omega, Nat.le_trans c5 d, e⟩
    · refine List.pairwise_append.mpr ⟨c2, e2, fun a ha b hb => ?_⟩
      exact Nat.le_trans (c1 a ha).2.2.2.2 (e1 b hb).2.2.2.1

theorem forLoop_eq_scan (crypt : List Char → List Char → List Char) (argv1 : List Char) :
    ∀ (n i : Nat) (w : List Char) (calls : List (List Char)),
      Valid w → rep w.length ≤ i → i + n ≤ maxTry →
      forLoop crypt argv1 n i ⟨pad w, calls⟩ = scan crypt argv1 (enumW n i w) w calls
  | 0, i, w, calls, _, _, _ => by simp [forLoop, enumW, scan]
  | n + 1, i, w, calls, hv, hr, hn => by
    have hw5 : w.length ≤ 5 := rep_length_le_five (by omega)
    have hi5 : i * 53 ^ 0 < 53 ^ 5 := by
      have : maxTry < 53 ^ 5 := by decide
      omega
    obtain ⟨_, _, c3, c4, _⟩ := convW_inv i i i 0 w hv (Nat.zero_le _) (by simp [rep]) hr
    rw [forLoop, enumW, scan_append,
      whileLoop_eq_scan crypt argv1 i i 0 w calls hv hw5 (Nat.zero_le _) hi5]
    cases h : scan crypt argv1 (convW i i 0 w) w calls with
    | ret o s => rfl
    | cont s =>
      have hs := scan_cont crypt argv1 _ _ _ _ h
      rw [convW_getLastD] at hs ⊢
      subst hs
      exact forLoop_eq_scan crypt argv1 n (i + 1) _ _ c3 (Nat.le_succ_of_le c4) (by omega)

/-! ## The index of a string

`enc t` reads `t` as a base-53 numeral, first symbol least significant, the symbol
`dict[j]` standing for the digit `j + 1`.  Iteration `enc t` of the outer loop is the one
that spells `t`. -/

theorem dict_indexOf : ∀ c ∈ dict, dict.indexOf c < 52 ∧ dict.getD (dict.indexOf c) NUL = c := by
  decide

theorem enc_cons_mod {c : Char} (cs : List Char) (hc : c ∈ dict) :
    enc (c :: cs) % dict_length = dict.indexOf c + 1 := by
  have h := (dict_indexOf c hc).1
  rw [enc, dict_length_eq]; omega

theorem enc_cons_div {c : Char} (cs : List Char) (hc : c ∈ dict) :
    enc (c :: cs) / dict_length = enc cs := by
  have h := (dict_indexOf c hc).1
  rw [enc, dict_length_eq]; omega

theorem sym_enc_cons {c : Char} (cs : List Char) (hc : c ∈ dict) : sym (enc (c :: cs)) = c := by
  rw [sym, enc_cons_mod cs hc]
  exact (dict_indexOf c hc).2

theorem enc_cons_pos (c : Char) (cs : List Char) : 0 < enc (c :: cs) := by
  rw [enc]; omega

theorem Valid.tail {c : Char} {cs : List Char} (h : Valid (c :: cs)) : Valid cs :=
  fun x hx => h x (List.mem_cons_of_mem _ hx)

theorem Valid.head {c : Char} {cs : List Char} (h : Valid (c :: cs)) : c ∈ dict :=
  h c (List.mem_cons_self _ _)

theorem enc_bounds : ∀ (t : List Char), Valid t → rep t.length ≤ enc t ∧ enc t < 53 ^ t.length
  | [], _ => by simp [rep, enc]
  | c :: cs, hv => by
    obtain ⟨h1, h2⟩ := enc_bounds cs hv.tail
    have h := (dict_indexOf c hv.head).1
    rw [List.length_cons, rep_succ_mul, enc, dict_length_eq, pow_succ]
    constructor <;> omega

theorem enc_lt_rep_succ {t : List Char} (hv : Valid t) : enc t < rep (t.length + 1) := by
  have h : rep (t.length + 1) = rep t.length + 53 ^ t.length := rfl
  have := (enc_bounds t hv).2
  omega

theorem convEnd_zero (fuel index : Nat) (w : List Char) : convEnd fuel 0 index w = w := by
  cases fuel <;> simp [convEnd]

theorem put_append (pre rest : List Char) (c : Char) :
    put (pre ++ rest) pre.length c = (pre ++ [c]) ++ rest.tail := by
  cases rest with
  | nil => simp [put]
  | cons r rs => simp [put]

/-- Iteration `enc u` of the conversion, entered at position `pre.length` with `pre`
already in place, spells `pre ++ u`, provided nothing is left in the buffer beyond
`pre ++ u`. -/
theorem convEnd_enc :
    ∀ (u pre rest : List Char) (fuel : Nat), Valid u → rest.length ≤ u.length →
      enc u ≤ fuel →
      convEnd fuel (enc u) pre.length (pre ++ rest) = pre ++ u ∧
        (u ≠ [] → pre ++ u ∈ convW fuel (enc u) pre.length (pre ++ rest))
  | [], pre, rest, fuel, _, hr, _ => by
    have h0 : rest = [] := List.length_eq_zero.mp (Nat.le_zero.mp hr)
    subst h0
    simp [enc, convEnd_zero]
  | c :: cs, pre, rest, fuel, hv, hr, hf => by
    have hpos := enc_cons_pos c cs
    obtain ⟨f, rfl⟩ : ∃ f, fuel = f + 1 := ⟨fuel - 1, by omega⟩
    have hmod : enc (c :: cs) % dict_length ≠ 0 := by
      rw [enc_cons_mod cs hv.head]; omega
    have hc : enc (c :: cs) > 0 ∧ enc (c :: cs) % dict_length ≠ 0 := ⟨hpos, hmod⟩
    have hdiv := enc_cons_div cs hv.head
    have hf1 : enc cs ≤ f := by
      have : enc cs < enc (c :: cs) := by
        rw [← hdiv, dict_length_eq]; omega
      omega
    have hr1 : rest.tail.length ≤ cs.length := by
      simp only [List.length_tail, List.length_cons] at hr ⊢; omega
    obtain ⟨ih1, ih2⟩ := convEnd_enc cs (pre ++ [c]) rest.tail f hv.tail hr1 hf1
    have hidx : (pre ++ [c]).length = pre.length + 1 := by simp
    rw [hidx] at ih1 ih2
    rw [convEnd, convW, if_pos hc, if_pos hc, sym_enc_cons cs hv.head, put_append, hdiv]
    refine ⟨by simpa using ih1, fun _ => ?_⟩
    by_cases hcs : cs = []
    · subst hcs
      have ht : rest.tail = [] := List.length_eq_zero.mp (Nat.le_zero.mp hr1)
      rw [ht]; simp
    · exact List.mem_cons_of_mem _ (by simpa using ih2 hcs)

theorem mem_enumW :
    ∀ (n i : Nat) (w t : List Char), Valid w → rep w.length ≤ i → Valid t → t ≠ [] →
      i ≤ enc t → enc t < i + n → t ∈ enumW n i w
  | 0, i, w, t, _, _, _, _, h1, h2 => by omega
  | n + 1, i, w, t, hv, hr, ht, hne, h1, h2 => by
    rw [enumW]
    by_cases he : enc t = i
    · have hwl : w.length ≤ t.length := by
        by_contra hlt
        have h3 : rep (t.length + 1) ≤ rep w.length := rep_mono (by omega)
        have h4 := enc_lt_rep_succ ht
        omega
      have h := (convEnd_enc t [] w i ht hwl (by omega)).2 hne
      rw [he] at h
      exact List.mem_append_left _ (by simpa using h)
    · obtain ⟨_, _, c3, c4, _⟩ := convW_inv i i i 0 w hv (Nat.zero_le _) (by simp [rep]) hr
      exact List.mem_append_right _
        (mem_enumW n (i + 1) _ t c3 (Nat.le_succ_of_le c4) ht hne (by omega) (by omega))

/-- The three ways a scan can end. -/
theorem scan_spec (crypt : List Char → List Char → List Char) (argv1 : List Char) :
    ∀ (ws : List (List Char)) (w : List Char) (calls : List (List Char)),
      ((∀ x ∈ ws, x.length < 5 ∧ crypt x salt ≠ argv1) ∧
          scan crypt argv1 ws w calls = .cont ⟨pad (ws.getLastD w), calls ++ ws⟩) ∨
        (∃ pre c post, ws = pre ++ c :: post ∧
          (∀ x ∈ pre, x.length < 5 ∧ crypt x salt ≠ argv1) ∧
          c.length < 5 ∧ crypt c salt = argv1 ∧
          scan crypt argv1 ws w calls = .ret (.found c) ⟨pad c, calls ++ (pre ++ [c])⟩) ∨
        (∃ pre c post, ws = pre ++ c :: post ∧
          (∀ x ∈ pre, x.length < 5 ∧ crypt x salt ≠ argv1) ∧
          5 ≤ c.length ∧
          scan crypt argv1 ws w calls = .ret .overrun ⟨pad c, calls ++ pre⟩)
  | [], w, calls => by
    left; simp [scan]
  | a :: ws, w, calls => by
    rw [scan]
    by_cases h4 : a.length < 5
    · rw [if_pos h4]
      by_cases hh : crypt a salt = argv1
      · rw [if_pos hh]
        right; left
        exact ⟨[], a, ws, rfl, by simp, h4, hh, by simp⟩
      · rw [if_neg hh]
        rcases scan_spec crypt argv1 ws a (calls ++ [a]) with h | h | h
        · left
          obtain ⟨h1, h2⟩ := h
          refine ⟨?_, ?_⟩
          · intro x hx
            rcases List.mem_cons.mp hx with e | e
            · subst e; exact ⟨h4, hh⟩
            · exact h1 x e
          · rw [h2, List.getLastD_cons]; simp
        · right; left
          obtain ⟨pre, c, post, e, h1, h2, h3, h5⟩ := h
          refine ⟨a :: pre, c, post, by rw [e]; rfl, ?_, h2, h3, by rw [h5]; simp⟩
          intro x hx
          rcases List.mem_cons.mp hx with e | e
          · subst e; exact ⟨h4, hh⟩
          · exact h1 x e
        · right; right
          obtain ⟨pre, c, post, e, h1, h2, h5⟩ := h
          refine ⟨a :: pre, c, post, by rw [e]; rfl, ?_, h2, by rw [h5]; simp⟩
          intro x hx
          rcases List.mem_cons.mp hx with e | e
          · subst e; exact ⟨h4, hh⟩
          · exact h1 x e
    · rw [if_neg h4]
      right; right
      exact ⟨[], a, ws, rfl, by simp, by omega, by simp⟩

/-! ## The whole run -/

theorem main_eq_scan (crypt : List Char → List Char → List Char) (argv1 : List Char) :
    main crypt 2 argv1 =
      match scan crypt argv1 allW [] [] with
      | .cont s => ⟨.exhausted, s.calls⟩
      | .ret o s => ⟨o, s.calls⟩ := by
  have h := forLoop_eq_scan crypt argv1 (maxTry - 1) 1 [] [] (by simp [Valid])
    (by simp [rep]) (by decide)
  have hk : key0 = pad [] := by decide
  unfold main allW
  rw [if_neg (by decide), hk, h]

theorem allW_pairwise : List.Pairwise LenLe allW :=
  (enumW_inv (maxTry - 1) 1 [] (by simp [Valid]) (by simp [rep])).2.1

theorem allW_valid {x : List Char} (h : x ∈ allW) : Valid x ∧ x ≠ [] :=
  let hx := (enumW_inv (maxTry - 1) 1 [] (by simp [Valid]) (by simp [rep])).1 x h
  ⟨hx.1, hx.2.1⟩

theorem mem_allW {t : List Char} (hv : Valid t) (hne : t ≠ []) (h : enc t < maxTry) :
    t ∈ allW := by
  have hpos : 1 ≤ enc t := by
    cases t with
    | nil => exact absurd rfl hne
    | cons c cs => exact enc_cons_pos c cs
  have hm : maxTry = 9999999 := rfl
  exact mem_enumW (maxTry - 1) 1 [] t (by simp [Valid]) (by simp [rep]) hv hne hpos (by omega)

theorem mem_allW_of_length {t : List Char} (hv : Valid t) (hne : t ≠ []) (h : t.length ≤ 4) :
    t ∈ allW := by
  have h1 := (enc_bounds t hv).2
  have h2 : 53 ^ t.length ≤ 53 ^ 4 := Nat.pow_le_pow_right (by decide) h
  have h3 : 53 ^ 4 < maxTry := by decide
  exact mem_allW hv hne (by omega)

/-- A written prefix shorter than `c` comes before `c`. -/
theorem mem_pre_of_shorter {pre post : List (List Char)} {c t : List Char}
    (he : allW = pre ++ c :: post) (ht : t ∈ allW) (hl : t.length < c.length) : t ∈ pre := by
  have hp := allW_pairwise
  rw [he] at hp ht
  rcases List.mem_append.mp ht with h | h
  · exact h
  · exfalso
    have hp2 := (List.pairwise_append.mp hp).2.1
    rcases List.mem_cons.mp h with e | e
    · rw [e] at hl; omega
    · have : LenLe c t := (List.pairwise_cons.mp hp2).1 t e
      unfold LenLe at this; omega

/-- The two ways a run with `argc = 2` can end: at the first written prefix whose hash
is `argv1`, or at the first written prefix that fills the buffer. -/
theorem main_cases (crypt : List Char → List Char → List Char) (argv1 : List Char) :
    (∃ pre c post, allW = pre ++ c :: post ∧
        (∀ x ∈ pre, x.length < 5 ∧ crypt x salt ≠ argv1) ∧
        c.length < 5 ∧ crypt c salt = argv1 ∧
        main crypt 2 argv1 = ⟨.found c, pre ++ [c]⟩) ∨
      (∃ pre c post, allW = pre ++ c :: post ∧
        (∀ x ∈ pre, x.length < 5 ∧ crypt x salt ≠ argv1) ∧
        5 ≤ c.length ∧
        main crypt 2 argv1 = ⟨.overrun, pre⟩) := by
  rw [main_eq_scan]
  rcases scan_spec crypt argv1 allW [] [] with h | h | h
  · exfalso
    have h5 : ['a', 'a', 'a', 'a', 'a'] ∈ allW := mem_allW (by decide) (by decide) (by decide)
    have := (h.1 _ h5).1
    simp at this
  · left
    obtain ⟨pre, c, post, e, h1, h2, h3, h4⟩ := h
    exact ⟨pre, c, post, e, h1, h2, h3, by rw [h4]; simp⟩
  · right
    obtain ⟨pre, c, post, e, h1, h2, h4⟩ := h
    exact ⟨pre, c, post, e, h1, h2, by rw [h4]; simp⟩

theorem main_calls_initial (crypt : List Char → List Char → List Char) (argv1 : List Char) :
    ∃ rest, allW = (main crypt 2 argv1).calls ++ rest := by
  rcases main_cases crypt argv1 with ⟨pre, c, post, e, _, _, _, h⟩ | ⟨pre, c, post, e, _, _, h⟩
  · exact ⟨post, by rw [h, e]; simp⟩
  · exact ⟨c :: post, by rw [h, e]⟩

theorem whileLoop_cont_key (crypt : List Char → List Char → List Char) (argv1 : List Char) :
    ∀ (fuel k index : Nat) (s s1 : St),
      whileLoop crypt argv1 fuel k index s = .cont s1 → s1.key = convert fuel k index s.key
  | 0, _, _, s, s1, h => by
    simp only [whileLoop, Res.cont.injEq] at h
    rw [← h]; rfl
  | fuel + 1, k, index, s, s1, h => by
    rw [whileLoop] at h
    rw [convert]
    by_cases hc : k > 0 ∧ k % dict_length ≠ 0
    · rw [if_pos hc] at h ⊢
      simp only [] at h
      by_cases hl : index < s.key.length
      · rw [if_pos hl] at h
        cases hs : cstr (s.key.set index (dict.getD (k % dict_length - 1) NUL)) with
        | none => rw [hs] at h; cases h
        | some str =>
          rw [hs] at h
          simp only [] at h
          by_cases hh : crypt str salt = argv1
          · rw [if_pos hh] at h; cases h
          · rw [if_neg hh] at h
            exact whileLoop_cont_key crypt argv1 fuel _ _ _ s1 h
      · rw [if_neg hl] at h; cases h
    · rw [if_neg hc] at h ⊢
      cases h; rfl

theorem forLoop_cont_key (crypt : List Char → List Char → List Char) (argv1 : List Char) :
    ∀ (n i : Nat) (s s1 : St),
      forLoop crypt argv1 n i s = .cont s1 → s1.key = forKeys n i s.key
  | 0, _, s, s1, h => by
    simp only [forLoop, Res.cont.injEq] at h
    rw [← h]; rfl
  | n + 1, i, s, s1, h => by
    rw [forLoop] at h
    rw [forKeys]
    cases hw : whileLoop crypt argv1 i i 0 s with
    | ret o s2 => rw [hw] at h; cases h
    | cont s2 =>
      rw [hw] at h
      simp only [] at h
      rw [← whileLoop_cont_key crypt argv1 i i 0 s s2 hw]
      exact forLoop_cont_key crypt argv1 n (i + 1) s2 s1 h

theorem convert_pad :
    ∀ (fuel k index : Nat) (w : List Char), index ≤ w.length → k * 53 ^ index < 53 ^ 5 →
      convert fuel k index (pad w) = pad (convEnd fuel k index w)
  | 0, _, _, _, _, _ => rfl
  | fuel + 1, k, index, w, hi, hk => by
    rw [convert, convEnd]
    by_cases hc : k > 0 ∧ k % dict_length ≠ 0
    · have hidx : index < 5 := by
        by_contra hge
        have h1 : 53 ^ 5 ≤ 53 ^ index := Nat.pow_le_pow_right (by decide) (by omega)
        have h2 : 53 ^ index ≤ k * 53 ^ index := Nat.le_mul_of_pos_left _ hc.1
        omega
      have hi1 : index + 1 ≤ (put w index (sym k)).length := by
        rw [put_length _ _ _ hi]; omega
      have hk1 : k / dict_length * 53 ^ (index + 1) < 53 ^ 5 := by
        rw [dict_length_eq, pow_succ]
        calc k / 53 * (53 ^ index * 53) = (k / 53 * 53) * 53 ^ index := by ring
          _ ≤ k * 53 ^ index := Nat.mul_le_mul_right _ (Nat.div_mul_le_self k 53)
          _ < 53 ^ 5 := hk
      rw [if_pos hc, if_pos hc, set_pad _ hi hidx]
      exact convert_pad fuel _ _ _ hi1 hk1
    · rw [if_neg hc, if_neg hc]

theorem forKeys_pad :
    ∀ (n i : Nat) (w : List Char), i + n ≤ maxTry →
      forKeys n i (pad w) = pad (enumEnd n i w)
  | 0, _, _, _ => rfl
  | n + 1, i, w, hn => by
    have hi5 : i * 53 ^ 0 < 53 ^ 5 := by
      have : maxTry < 53 ^ 5 := by decide
      omega
    rw [forKeys, enumEnd, convert_pad i i 0 w (Nat.zero_le _) hi5]
    exact forKeys_pad n (i + 1) _ (by omega)

/-! ## The iteration bound of the conversion loop is never the reason it stops -/

theorem whileLoop_fuel_irrelevant (crypt : List Char → List Char → List Char)
    (argv1 : List Char) :
    ∀ (f1 f2 k index : Nat) (s : St), k ≤ f1 → k ≤ f2 →
      whileLoop crypt argv1 f1 k index s = whileLoop crypt argv1 f2 k index s
  | 0, 0, _, _, _, _, _ => rfl
  | 0, f2 + 1, k, index, s, h1, _ => by
    have hk : ¬ (k > 0 ∧ k % dict_length ≠ 0) := by omega
    rw [whileLoop, whileLoop, if_neg hk]
  | f1 + 1, 0, k, index, s, _, h2 => by
    have hk : ¬ (k > 0 ∧ k % dict_length ≠ 0) := by omega
    rw [whileLoop, whileLoop, if_neg hk]
  | f1 + 1, f2 + 1, k, index, s, h1, h2 => by
    by_cases hc : k > 0 ∧ k % dict_length ≠ 0
    · have hd : k / dict_length < k := Nat.div_lt_self hc.1 (by decide)
      have ih : ∀ (index : Nat) (s : St),
          whileLoop crypt argv1 f1 (k / dict_length) index s =
            whileLoop crypt argv1 f2 (k / dict_length) index s :=
        fun index s => whileLoop_fuel_irrelevant crypt argv1 f1 f2 _ index s (by omega) (by omega)
      simp only [whileLoop, ih]
    · rw [whileLoop, whileLoop, if_neg hc, if_neg hc]

theorem convert_fuel_irrelevant :
    ∀ (f1 f2 k index : Nat) (key : List Char), k ≤ f1 → k ≤ f2 →
      convert f1 k index key = convert f2 k index key
  | 0, 0, _, _, _, _, _ => rfl
  | 0, f2 + 1, k, index, key, h1, _ => by
    have hk : ¬ (k > 0 ∧ k % dict_length ≠ 0) := by omega
    rw [convert, convert, if_neg hk]
  | f1 + 1, 0, k, index, key, _, h2 => by
    have hk : ¬ (k > 0 ∧ k % dict_length ≠ 0) := by omega
    rw [convert, convert, if_neg hk]
  | f1 + 1, f2 + 1, k, index, key, h1, h2 => by
    by_cases hc : k > 0 ∧ k % dict_length ≠ 0
    · have hd : k / dict_length < k := Nat.div_lt_self hc.1 (by decide)
      rw [convert, convert, if_pos hc, if_pos hc]
      exact convert_fuel_irrelevant f1 f2 _ _ _ (by omega) (by omega)
    · rw [convert, convert, if_neg hc, if_neg hc]

/-! ## The candidate of an index -/

theorem indexOf_sym : ∀ d : Fin 53, d.val ≠ 0 →
    dict.indexOf (dict.getD (d.val - 1) NUL) + 1 = d.val := by
  decide

theorem exists_enc_of_digits :
    ∀ (fuel k : Nat), k ≤ fuel → (∀ d ∈ digits fuel k, d ≠ 0) → ∃ t, Valid t ∧ enc t = k
  | 0, k, hk, _ => ⟨[], by simp [Valid], by simp [enc]; omega⟩
  | fuel + 1, k, hk, hd => by
    by_cases h0 : k = 0
    · exact ⟨[], by simp [Valid], by simp [enc, h0]⟩
    · rw [digits, if_neg h0] at hd
      have hm : k % dict_length ≠ 0 := hd _ (List.mem_cons_self _ _)
      have hlt : k / dict_length ≤ fuel := by
        have : k / 53 < k := Nat.div_lt_self (by omega) (by decide)
        rw [dict_length_eq]; omega
      obtain ⟨t, hv, he⟩ := exists_enc_of_digits fuel (k / dict_length) hlt
        (fun d h => hd d (List.mem_cons_of_mem _ h))
      refine ⟨sym k :: t, ?_, ?_⟩
      · intro c hc
        rcases List.mem_cons.mp hc with e | e
        · exact e ▸ sym_mem hm
        · exact hv c e
      · have h53 : k % dict_length < 53 := Nat.mod_lt _ (by decide)
        have := indexOf_sym ⟨k % dict_length, h53⟩ hm
        simp only [] at this
        rw [enc, he, sym, this]
        exact Nat.mod_add_div k dict_length

theorem digits_enc :
    ∀ (t : List Char) (fuel : Nat), Valid t → enc t ≤ fuel →
      ∀ d ∈ digits fuel (enc t), d ≠ 0
  | [], fuel, _, _ => by
    cases fuel <;> simp [digits, enc]
  | c :: cs, fuel, hv, hf => by
    have hpos := enc_cons_pos c cs
    obtain ⟨f, rfl⟩ : ∃ f, fuel = f + 1 := ⟨fuel - 1, by omega⟩
    have hdiv := enc_cons_div cs hv.head
    have hf1 : enc cs ≤ f := by
      have : enc cs < enc (c :: cs) := by
        rw [← hdiv, dict_length_eq]; omega
      omega
    rw [digits, if_neg (by omega), hdiv, enc_cons_mod cs hv.head]
    intro d hd
    rcases List.mem_cons.mp hd with e | e
    · omega
    · exact digits_enc cs f hv.tail hf1 d e

theorem zeroFree_enc {t : List Char} (hv : Valid t) : zeroFree (enc t) :=
  digits_enc t (enc t) hv (Nat.le_refl _)

theorem exists_enc_of_zeroFree {i : Nat} (hz : zeroFree i) : ∃ t, Valid t ∧ enc t = i :=
  exists_enc_of_digits i i (Nat.le_refl _) hz

theorem length_le_of_enc_lt {t : List Char} {m : Nat} (hv : Valid t) (h : enc t < rep (m + 1)) :
    t.length ≤ m := by
  by_contra hlt
  have h1 : rep (m + 1) ≤ rep t.length := rep_mono (by omega)
  have h2 := (enc_bounds t hv).1
  omega

theorem enumEnd_succ : ∀ (n i : Nat) (w : List Char),
    enumEnd (n + 1) i w = convEnd (i + n) (i + n) 0 (enumEnd n i w)
  | 0, i, w => by simp [enumEnd]
  | n + 1, i, w => by
    have h := enumEnd_succ n (i + 1) (convEnd i i 0 w)
    have e : i + 1 + n = i + (n + 1) := by omega
    rw [e] at h
    rw [enumEnd, h]
    rfl

theorem enumEnd_inv (n : Nat) :
    Valid (enumEnd n 1 []) ∧ rep (enumEnd n 1 []).length ≤ n := by
  cases n with
  | zero => simp [enumEnd, Valid, rep]
  | succ m =>
    obtain ⟨_, _, h3, h4, _⟩ := enumW_inv m 1 [] (by simp [Valid]) (by simp [rep])
    obtain ⟨_, _, c3, c4, _⟩ := convW_inv (1 + m) (1 + m) (1 + m) 0 _ h3 (Nat.zero_le _)
      (by simp [rep]) h4
    rw [enumEnd_succ]
    exact ⟨c3, by omega⟩

theorem enumEnd_length_mono {a b : Nat} (h : a ≤ b) :
    (enumEnd a 1 []).length ≤ (enumEnd b 1 []).length := by
  induction h with
  | refl => exact Nat.le_refl _
  | @step m _ ih =>
    obtain ⟨hv, hr⟩ := enumEnd_inv m
    obtain ⟨_, _, _, _, c5⟩ := convW_inv (1 + m) (1 + m) (1 + m) 0 _ hv (Nat.zero_le _)
      (by simp [rep]) (by omega)
    rw [enumEnd_succ]
    exact Nat.le_trans ih c5

/-- The written prefix at the end of iteration `enc t` is `t`. -/
theorem enumEnd_enc {t : List Char} (hv : Valid t) (hne : t ≠ []) :
    enumEnd (enc t) 1 [] = t := by
  have hpos : 1 ≤ enc t := by
    cases t with
    | nil => exact absurd rfl hne
    | cons c cs => exact enc_cons_pos c cs
  obtain ⟨m, hm⟩ : ∃ m, enc t = m + 1 := ⟨enc t - 1, by omega⟩
  obtain ⟨hv1, hr1⟩ := enumEnd_inv m
  have hwl : (enumEnd m 1 []).length ≤ t.length := by
    by_contra hlt
    have h3 : rep (t.length + 1) ≤ rep (enumEnd m 1 []).length := rep_mono (by omega)
    have h4 := enc_lt_rep_succ hv
    omega
  have h := (convEnd_enc t [] (enumEnd m 1 []) (enc t) hv hwl (Nat.le_refl _)).1
  have e : 1 + m = enc t := by omega
  rw [hm, enumEnd_succ, e]
  simpa using h

theorem decode_eq {i : Nat} (hi : i < maxTry) : decode i = cstr (pad (enumEnd i 1 [])) := by
  have hk : key0 = pad [] := by decide
  have hm : maxTry = 9999999 := rfl
  unfold decode keyAt
  rw [hk, forKeys_pad i 1 [] (by omega)]

/-- Below index 8042221 the buffer always holds a string: the written prefix. -/
theorem decode_eq_some {i : Nat} (hi : i < 8042221) : decode i = some (enumEnd i 1 []) := by
  obtain ⟨hv, hr⟩ := enumEnd_inv i
  have h5 : rep 5 = 8042221 := by decide
  have hl : (enumEnd i 1 []).length < 5 := by
    by_contra hge
    have : rep 5 ≤ rep (enumEnd i 1 []).length := rep_mono (by omega)
    omega
  have hm : maxTry = 9999999 := rfl
  rw [decode_eq (by omega), cstr_pad_lt hv hl]

theorem decode_enc {t : List Char} (hv : Valid t) (hne : t ≠ []) (h4 : t.length ≤ 4) :
    decode (enc t) = some t := by
  have h1 := (enc_bounds t hv).2
  have h2 : 53 ^ t.length ≤ 53 ^ 4 := Nat.pow_le_pow_right (by decide) h4
  have h3 : 53 ^ 4 < maxTry := by decide
  rw [decode_eq (by omega), enumEnd_enc hv hne, cstr_pad_lt hv (by omega)]

/-- A zero-free index below `53^4` is `enc t` for a string `t` of 1 to 4 symbols. -/
theorem zeroFree_cases {i : Nat} (h0 : 0 < i) (hz : zeroFree i) (hi : i < 53 ^ 4) :
    ∃ t, Valid t ∧ t ≠ [] ∧ t.length ≤ 4 ∧ enc t = i ∧ decode i = some t := by
  obtain ⟨t, hv, he⟩ := exists_enc_of_zeroFree hz
  have hne : t ≠ [] := by
    intro h; rw [h] at he; simp [enc] at he; omega
  have hl : t.length ≤ 4 := by
    have h5 : (53 : Nat) ^ 4 ≤ rep (4 + 1) := by decide
    exact length_le_of_enc_lt hv (by omega)
  exact ⟨t, hv, hne, hl, he, he ▸ decode_enc hv hne hl⟩

/-- A run that ends in `found c` has handed `c` to `crypt` last, `c` hashes to `argv1`,
and no string handed over before it does. -/
theorem found_is_first_match (crypt : List Char → List Char → List Char) (argv1 c : List Char)
    (h : (main crypt 2 argv1).outcome = .found c) :
    ∃ before, (main crypt 2 argv1).calls = before ++ [c] ∧ crypt c salt = argv1 ∧
      ∀ x ∈ before, crypt x salt ≠ argv1 := by
  rcases main_cases crypt argv1 with ⟨pre, c1, _, _, hp, _, h3, hm⟩ | ⟨_, _, _, _, _, _, hm⟩
  · rw [hm] at h ⊢
    have hc : c1 = c := by simpa using h
    subst hc
    exact ⟨pre, rfl, h3, fun x hx => (hp x hx).2⟩
  · rw [hm] at h; simp at h

/-! ## The claims -/

/-- C1: for every key `s` of 1 to 4 symbols of the 52-letter alphabet and every hash
oracle `crypt`, the run of `main` with `argv[1] = crypt(s, salt)` ends in `found c`
(the key is printed, status 0) with `crypt(c, salt) = crypt(s, salt)`; and when no string
handed to `crypt` other than `s` has the hash of `s`, then `c = s`. -/
theorem crack_finds_key (crypt : List Char → List Char → List Char) (s : List Char)
    (hv : Valid s) (h1 : 1 ≤ s.length) (h4 : s.length ≤ 4) :
    ∃ c, (main crypt 2 (crypt s salt)).outcome = .found c ∧
      (main crypt 2 (crypt s salt)).outcome.status = some 0 ∧
      (main crypt 2 (crypt s salt)).outcome.printed = some (c ++ ['\n']) ∧
      crypt c salt = crypt s salt ∧
      ((∀ x ∈ (main crypt 2 (crypt s salt)).calls, crypt x salt = crypt s salt → x = s) →
        c = s) := by
  have hne : s ≠ [] := by intro h; rw [h] at h1; simp at h1
  have hs : s ∈ allW := mem_allW_of_length hv hne h4
  rcases main_cases crypt (crypt s salt) with
    ⟨pre, c, post, e, _, _, h3, h⟩ | ⟨pre, c, post, e, hp, h5, _⟩
  · refine ⟨c, by rw [h], by rw [h]; rfl, by rw [h]; rfl, h3, fun hu => ?_⟩
    exact hu c (by rw [h]; simp) h3
  · exfalso
    have := mem_pre_of_shorter e hs (by omega)
    exact (hp s this).2 rfl

/-- C1, on the author's key "hi" with the oracle that returns the key unchanged. -/
theorem crack_finds_key_witness :
    (main (fun k _ => k) 2 ['h', 'i']).outcome = .found ['h', 'i'] := by
  obtain ⟨c, h1, _, _, h2, _⟩ :=
    crack_finds_key (fun k _ => k) ['h', 'i'] (by decide) (by decide) (by decide)
  rw [h1]
  exact congrArg Outcome.found h2

/-- C3 as stated fails: the status returned on `exhausted` and the status returned on a
wrong argument count are the same. -/
theorem exit_status_not_distinct :
    Outcome.exhausted.status = (main (fun k _ => k) 1 []).outcome.status := by
  decide

/-- C3, amended: a run has status 0 exactly when it ends in `found`; the statuses of
`exhausted` and of a usage error are both 1. -/
theorem exit_status_amended (crypt : List Char → List Char → List Char) (argc : Nat)
    (argv1 : List Char) :
    ((main crypt argc argv1).outcome.status = some 0 ↔
        ∃ c, (main crypt argc argv1).outcome = .found c) ∧
      Outcome.exhausted.status = some 1 ∧ Outcome.usage.status = some 1 ∧
      (main crypt 1 argv1).outcome.status = some 1 := by
  refine ⟨?_, rfl, rfl, rfl⟩
  cases h : (main crypt argc argv1).outcome <;> simp [Outcome.status]

/-- C4 as stated fails: the indices 52 and 53, both in `[1, N]`, leave the same string
"Z" in `key`; and run on a fresh buffer, the conversions for 53 and for 106 both leave
the empty string. -/
theorem decode_not_injective :
    1 ≤ 52 ∧ 53 ≤ dict.length + dict.length ^ 2 + dict.length ^ 3 + dict.length ^ 4 ∧
      decode 52 = some ['Z'] ∧ decode 53 = some ['Z'] ∧
      cstr (convert 53 53 0 key0) = some [] ∧ cstr (convert 106 106 0 key0) = some [] := by
  decide

/-- C4, amended: on the indices below `53^4` that have no zero base-53 digit, `decode`
is injective with values among the strings of 1 to 4 alphabet symbols, and every such
string is the value at exactly one of these indices. -/
theorem decode_bijective_zeroFree (i : Nat) (t : List Char) (h0 : 0 < i) (hz : zeroFree i)
    (hi : i < 53 ^ 4) (hv : Valid t) (hne : t ≠ []) (h4 : t.length ≤ 4) :
    (∃ u, decode i = some u ∧ Valid u ∧ u ≠ [] ∧ u.length ≤ 4 ∧
        ∀ j, 0 < j → zeroFree j → j < 53 ^ 4 → decode j = decode i → j = i) ∧
      (∃ j, 0 < j ∧ zeroFree j ∧ j < 53 ^ 4 ∧ decode j = some t ∧
        ∀ j2, 0 < j2 → zeroFree j2 → j2 < 53 ^ 4 → decode j2 = some t → j2 = j) := by
  have huniq : ∀ (a b : Nat), 0 < a → zeroFree a → a < 53 ^ 4 → 0 < b → zeroFree b →
      b < 53 ^ 4 → decode a = decode b → a = b := by
    intro a b ha0 haz ha hb0 hbz hb hab
    obtain ⟨ta, _, _, _, ea, da⟩ := zeroFree_cases ha0 haz ha
    obtain ⟨tb, _, _, _, eb, db⟩ := zeroFree_cases hb0 hbz hb
    rw [da, db] at hab
    have : ta = tb := by simpa using hab
    rw [← ea, ← eb, this]
  constructor
  · obtain ⟨u, hu, hune, hul, _, hd⟩ := zeroFree_cases h0 hz hi
    exact ⟨u, hd, hu, hune, hul, fun j hj0 hjz hj hji => huniq j i hj0 hjz hj h0 hz hi hji⟩
  · have hpos : 0 < enc t := by
      cases t with
      | nil => exact absurd rfl hne
      | cons c cs => exact enc_cons_pos c cs
    have hlt : enc t < 53 ^ 4 := by
      have h1 := (enc_bounds t hv).2
      have h2 : 53 ^ t.length ≤ 53 ^ 4 := Nat.pow_le_pow_right (by decide) h4
      omega
    have hd := decode_enc hv hne h4
    refine ⟨enc t, hpos, zeroFree_enc hv, hlt, hd, fun j hj0 hjz hj hjt => ?_⟩
    exact huniq j (enc t) hj0 hjz hj hpos (zeroFree_enc hv) hlt (by rw [hjt, hd])

/-- C4 amended, at the index 485 and the string "hi": 485 is the one index of "hi". -/
theorem decode_bijective_zeroFree_witness :
    ∃ j, 0 < j ∧ zeroFree j ∧ j < 53 ^ 4 ∧ decode j = some ['h', 'i'] ∧
      ∀ j2, 0 < j2 → zeroFree j2 → j2 < 53 ^ 4 → decode j2 = some ['h', 'i'] → j2 = j :=
  (decode_bijective_zeroFree 485 ['h', 'i'] (by decide) (by decide) (by decide) (by decide)
    (by decide) (by decide)).2

/-- C5 as stated fails: index 54 decodes to "aa", which `encode` maps to 53; index 53
leaves "Z" in `key`, which `encode` maps to 52. -/
theorem encode_decode_fails :
    1 ≤ 54 ∧ 54 < maxTry ∧ (decode 54).map encode = some 53 ∧
      (decode 53).map encode = some 52 := by
  decide

/-- C5, amended: for every index below `53^4` with no zero base-53 digit, reading the
candidate as a base-53 numeral, first symbol least significant (`enc`), gives the index
back. -/
theorem enc_decode_zeroFree (i : Nat) (h0 : 0 < i) (hz : zeroFree i) (hi : i < 53 ^ 4) :
    (decode i).map enc = some i := by
  obtain ⟨t, _, _, _, he, hd⟩ := zeroFree_cases h0 hz hi
  rw [hd, Option.map_some', he]

/-- C5 amended, at index 485. -/
theorem enc_decode_zeroFree_witness : (decode 485).map enc = some 485 :=
  enc_decode_zeroFree 485 (by decide) (by decide) (by decide)

set_option maxRecDepth 100000 in
/-- C6 as stated fails: indices 52 < 53 both give "Z", and indices 55 < 107 give "ba"
and "ab", of which the first does not precede the second. -/
theorem order_fails :
    decode 52 = some ['Z'] ∧ decode 53 = some ['Z'] ∧ ¬ precedes ['Z'] ['Z'] ∧
      decode 55 = some ['b', 'a'] ∧ decode 107 = some ['a', 'b'] ∧
      ¬ precedes ['b', 'a'] ['a', 'b'] := by
  decide

/-- C6, amended: for indices `i1 < i2` below 8042221 the candidate of `i1` is no longer
than the candidate of `i2`; and when neither index has a zero base-53 digit, either it
is strictly shorter, or the lengths are equal and it comes first in the order of the
base-53 numerals read first symbol least significant (`enc`). -/
theorem order_amended (i1 i2 : Nat) (h1 : 1 ≤ i1) (h12 : i1 < i2) (h2 : i2 < 8042221) :
    ∃ a b, decode i1 = some a ∧ decode i2 = some b ∧ a.length ≤ b.length ∧
      (zeroFree i1 → zeroFree i2 →
        a.length < b.length ∨ (a.length = b.length ∧ enc a < enc b)) := by
  have hlen := enumEnd_length_mono (Nat.le_of_lt h12)
  refine ⟨enumEnd i1 1 [], enumEnd i2 1 [], decode_eq_some (by omega), decode_eq_some h2,
    hlen, fun hz1 hz2 => ?_⟩
  obtain ⟨ta, hva, hea⟩ := exists_enc_of_zeroFree hz1
  obtain ⟨tb, hvb, heb⟩ := exists_enc_of_zeroFree hz2
  have hna : ta ≠ [] := by
    intro h; rw [h] at hea; simp [enc] at hea; omega
  have hnb : tb ≠ [] := by
    intro h; rw [h] at heb; simp [enc] at heb; omega
  have ea := enumEnd_enc hva hna
  have eb := enumEnd_enc hvb hnb
  rw [hea] at ea
  rw [heb] at eb
  rw [ea, eb] at hlen ⊢
  rw [hea, heb]
  rcases Nat.lt_or_ge ta.length tb.length with h | h
  · exact Or.inl h
  · exact Or.inr ⟨Nat.le_antisymm hlen h, h12⟩

/-- C6 amended, at the indices 55 and 107. -/
theorem order_amended_witness :
    ∃ a b, decode 55 = some a ∧ decode 107 = some b ∧ a.length ≤ b.length ∧
      (zeroFree 55 → zeroFree 107 →
        a.length < b.length ∨ (a.length = b.length ∧ enc a < enc b)) :=
  order_amended 55 107 (by decide) (by decide) (by decide)

/-- C7 (the code departs from it): the conversion for index 8042221, an index below
`maxTry`, writes five symbols whatever the buffer held, `key[4]` included, and leaves no
NUL in the buffer. -/
theorem fifth_symbol_written (a b c d e : Char) :
    8042221 < maxTry ∧
      convert 8042221 8042221 0 [a, b, c, d, e] = ['a', 'a', 'a', 'a', 'a'] ∧
      cstr (convert 8042221 8042221 0 [a, b, c, d, e]) = none ∧
      keyAt 8042221 = ['a', 'a', 'a', 'a', 'a'] ∧ decode 8042221 = none := by
  have h : convert 8042221 8042221 0 [a, b, c, d, e] = ['a', 'a', 'a', 'a', 'a'] := by
    simp [convert, dict_length, dict]
  have hv : Valid ['a', 'a', 'a', 'a', 'a'] := by decide
  have he : enc ['a', 'a', 'a', 'a', 'a'] = 8042221 := by decide
  have hk : keyAt 8042221 = ['a', 'a', 'a', 'a', 'a'] := by
    have hk0 : key0 = pad [] := by decide
    have h1 := enumEnd_enc hv (by decide)
    rw [he] at h1
    unfold keyAt
    rw [hk0, forKeys_pad 8042221 1 [] (by decide), h1]
    decide
  rw [h]
  refine ⟨by decide, rfl, by decide, hk, ?_⟩
  unfold decode
  rw [hk]
  decide

/-- C10: with `argc` other than 2, `main` returns the usage status 1 and has handed
nothing to `crypt`; with `argc = 2` the search starts: its first `crypt` call, on "a",
is made. -/
theorem usage_before_search (crypt : List Char → List Char → List Char) (argc : Nat)
    (argv1 : List Char) (h : argc ≠ 2) :
    (main crypt argc argv1).outcome = .usage ∧
      (main crypt argc argv1).outcome.status = some 1 ∧
      (main crypt argc argv1).calls = [] ∧
      (main crypt 2 argv1).outcome ≠ .usage ∧
      (main crypt 2 argv1).calls.head? = some ['a'] := by
  have hm : main crypt argc argv1 = ⟨.usage, []⟩ := by simp [main, h]
  have ha : ∃ rest, allW = ['a'] :: rest := by
    have hmt : maxTry - 1 = 9999997 + 1 := by decide
    have hc : convW 1 1 0 [] = [['a']] := by decide
    refine ⟨enumW 9999997 (1 + 1) (convEnd 1 1 0 []), ?_⟩
    unfold allW
    rw [hmt, enumW, hc, List.singleton_append]
  obtain ⟨rest, ha⟩ := ha
  refine ⟨by rw [hm], by rw [hm]; rfl, by rw [hm], ?_, ?_⟩
  · rcases main_cases crypt argv1 with ⟨_, _, _, _, _, _, _, h2⟩ | ⟨_, _, _, _, _, _, h2⟩ <;>
      rw [h2] <;> simp
  · rcases main_cases crypt argv1 with
      ⟨pre, c, post, e, _, _, _, h2⟩ | ⟨pre, c, post, e, _, h5, h2⟩
    · rw [h2]
      rw [ha] at e
      cases pre with
      | nil =>
        simp only [List.nil_append, List.cons.injEq] at e
        simp [e.1]
      | cons p ps =>
        simp only [List.cons_append, List.cons.injEq] at e
        simp [e.1]
    · rw [h2]
      rw [ha] at e
      cases pre with
      | nil =>
        simp only [List.nil_append, List.cons.injEq] at e
        rw [← e.1] at h5; simp at h5
      | cons p ps =>
        simp only [List.cons_append, List.cons.injEq] at e
        simp [e.1]

/-- C10, at `argc = 1`. -/
theorem usage_before_search_witness :
    (main (fun k _ => k) 1 []).outcome = .usage ∧ (main (fun k _ => k) 1 []).calls = [] :=
  let h := usage_before_search (fun k _ => k) 1 [] (by decide)
  ⟨h.1, h.2.2.1⟩

/-! ## The calls of one iteration -/

theorem convW_length : ∀ (fuel k index : Nat) (w : List Char),
    (convW fuel k index w).length = bodyRuns dict_length fuel k
  | 0, _, _, _ => rfl
  | fuel + 1, k, index, w => by
    rw [convW, bodyRuns]
    by_cases hc : k > 0 ∧ k % dict_length ≠ 0
    · rw [if_pos hc, if_pos hc, List.length_cons, convW_length fuel]
      omega
    · rw [if_neg hc, if_neg hc]; rfl

theorem bodyRuns_le : ∀ (fuel k m : Nat), k < 53 ^ m → bodyRuns dict_length fuel k ≤ m
  | 0, _, _, _ => Nat.zero_le _
  | fuel + 1, k, m, hk => by
    rw [bodyRuns]
    by_cases hc : k > 0 ∧ k % dict_length ≠ 0
    · rw [if_pos hc]
      cases m with
      | zero => simp at hk; omega
      | succ m =>
        have h1 : k / dict_length < 53 ^ m := by
          rw [dict_length_eq, Nat.div_lt_iff_lt_mul (by decide)]
          rw [pow_succ] at hk; exact hk
        have := bodyRuns_le fuel (k / dict_length) m h1
        omega
    · rw [if_neg hc]; exact Nat.zero_le _

theorem scan_no_match (ws : List (List Char)) (w : List Char) (calls : List (List Char))
    (h : ∀ x ∈ ws, x.length < 5) :
    scan (fun _ _ => []) ['x'] ws w calls = .cont ⟨pad (ws.getLastD w), calls ++ ws⟩ := by
  rcases scan_spec (fun _ _ => []) ['x'] ws w calls with h1 | h1 | h1
  · exact h1.2
  · obtain ⟨_, _, _, _, _, _, h3, _⟩ := h1
    simp at h3
  · obtain ⟨pre, c, post, e, _, h5, _⟩ := h1
    have := h c (by rw [e]; simp)
    omega

theorem length_lt_five_of_rep {x : List Char} {i : Nat} (h : rep x.length ≤ i)
    (hi : i < 8042221) : x.length < 5 := by
  by_contra hge
  have h5 : rep 5 = 8042221 := by decide
  have : rep 5 ≤ rep x.length := rep_mono (by omega)
  omega

/-- Below index 8042221 the loop hands exactly the written prefixes to `crypt`. -/
theorem submits_pad {w : List Char} {i : Nat} (hv : Valid w) (hr : rep w.length ≤ i)
    (hi : i < 8042221) : submits (pad w) i = convW i i 0 w := by
  have hw5 : w.length ≤ 5 := Nat.le_of_lt (length_lt_five_of_rep hr hi)
  have hi5 : i * 53 ^ 0 < 53 ^ 5 := by
    have : (8042221 : Nat) < 53 ^ 5 := by decide
    omega
  obtain ⟨c1, _, _, _, _⟩ := convW_inv i i i 0 w hv (Nat.zero_le _) (by simp [rep]) hr
  have hall : ∀ x ∈ convW i i 0 w, x.length < 5 :=
    fun x hx => length_lt_five_of_rep (c1 x hx).2.2.1 hi
  unfold submits
  rw [whileLoop_eq_scan _ _ i i 0 w [] hv hw5 (Nat.zero_le _) hi5, scan_no_match _ _ _ hall]
  simp

theorem keyAt_eq_pad {i : Nat} (hi : i < maxTry) : keyAt i = pad (enumEnd i 1 []) := by
  have hk : key0 = pad [] := by decide
  have hm : maxTry = 9999999 := rfl
  unfold keyAt
  rw [hk, forKeys_pad i 1 [] (by omega)]

/-- The calls of iteration `i` of a run that got there, below index 8042221. -/
theorem submits_keyAt {i : Nat} (h1 : 1 ≤ i) (hi : i < 8042221) :
    submits (keyAt (i - 1)) i = convW i i 0 (enumEnd (i - 1) 1 []) := by
  have hm : maxTry = 9999999 := rfl
  obtain ⟨hv, hr⟩ := enumEnd_inv (i - 1)
  rw [keyAt_eq_pad (by omega)]
  exact submits_pad hv (by omega) hi

theorem digits_map_enc :
    ∀ (t : List Char) (fuel : Nat), Valid t → enc t ≤ fuel →
      (digits fuel (enc t)).map (fun d => dict.getD (d - 1) NUL) = t
  | [], fuel, _, _ => by
    cases fuel <;> simp [digits, enc]
  | c :: cs, fuel, hv, hf => by
    have hpos := enc_cons_pos c cs
    obtain ⟨f, rfl⟩ : ∃ f, fuel = f + 1 := ⟨fuel - 1, by omega⟩
    have hdiv := enc_cons_div cs hv.head
    have hf1 : enc cs ≤ f := by
      have : enc cs < enc (c :: cs) := by
        rw [← hdiv, dict_length_eq]; omega
      omega
    rw [digits, if_neg (by omega), hdiv, enc_cons_mod cs hv.head, List.map_cons,
      digits_map_enc cs f hv.tail hf1]
    have := (dict_indexOf c hv.head).2
    simp only [Nat.add_sub_cancel]
    rw [this]

theorem spell_enc {t : List Char} (hv : Valid t) : spell (enc t) = t :=
  digits_map_enc t (enc t) hv (Nat.le_refl _)

theorem bodyRuns_eq_takeWhile : ∀ (fuel k : Nat),
    bodyRuns dict_length fuel k = ((digits fuel k).takeWhile (fun d => d != 0)).length
  | 0, _ => rfl
  | fuel + 1, k => by
    rw [bodyRuns, digits]
    by_cases h0 : k = 0
    · rw [if_neg (by omega), if_pos h0]; rfl
    · rw [if_neg h0]
      by_cases hm : k % dict_length = 0
      · rw [if_neg (by omega), List.takeWhile_cons_of_neg (by simp [hm])]; rfl
      · rw [if_pos ⟨by omega, hm⟩, List.takeWhile_cons_of_pos (by simpa using hm),
          List.length_cons, bodyRuns_eq_takeWhile fuel]
        omega

theorem bodyRuns_zero (dl fuel : Nat) : bodyRuns dl fuel 0 = 0 := by
  cases fuel <;> simp [bodyRuns]

theorem getLast?_of_getLastD {l : List (List Char)} {d x : List Char} (hne : l ≠ [])
    (h : l.getLastD d = x) : l.getLast? = some x := by
  cases l with
  | nil => exact absurd rfl hne
  | cons a as =>
    rw [List.getLastD_cons] at h
    rw [List.getLast?_cons, ← h]
    simp

/-- Iteration `enc t`, entered with nothing in the buffer beyond `t.length` symbols, ends
with the call on `t`. -/
theorem convW_last_enc {t w : List Char} (hv : Valid t) (hne : t ≠ [])
    (hl : w.length ≤ t.length) : (convW (enc t) (enc t) 0 w).getLast? = some t := by
  obtain ⟨h1, h2⟩ := convEnd_enc t [] w (enc t) hv hl (Nat.le_refl _)
  have hmem := h2 hne
  simp only [List.length_nil, List.nil_append] at h1 hmem
  have hnn : convW (enc t) (enc t) 0 w ≠ [] := List.ne_nil_of_mem hmem
  exact getLast?_of_getLastD hnn (by rw [convW_getLastD, h1])

theorem whileLoop_no_badWrite (crypt : List Char → List Char → List Char) (argv1 : List Char) :
    ∀ (fuel k index : Nat) (s s1 : St), s.key.length = 5 → k * 53 ^ index < 53 ^ 5 →
      whileLoop crypt argv1 fuel k index s ≠ .ret .badWrite s1
  | 0, _, _, _, _, _, _ => by simp [whileLoop]
  | fuel + 1, k, index, s, s1, hs, hk => by
    rw [whileLoop]
    by_cases hc : k > 0 ∧ k % dict_length ≠ 0
    · have hidx : index < 5 := by
        by_contra hge
        have h1 : 53 ^ 5 ≤ 53 ^ index := Nat.pow_le_pow_right (by decide) (by omega)
        have h2 : 53 ^ index ≤ k * 53 ^ index := Nat.le_mul_of_pos_left _ hc.1
        omega
      have hk1 : k / dict_length * 53 ^ (index + 1) < 53 ^ 5 := by
        rw [dict_length_eq, pow_succ]
        calc k / 53 * (53 ^ index * 53) = (k / 53 * 53) * 53 ^ index := by ring
          _ ≤ k * 53 ^ index := Nat.mul_le_mul_right _ (Nat.div_mul_le_self k 53)
          _ < 53 ^ 5 := hk
      rw [if_pos hc]
      simp only []
      rw [if_pos (by omega)]
      split
      · simp
      · split
        · simp
        · exact whileLoop_no_badWrite crypt argv1 fuel _ _ _ s1
            (by simp only [List.length_set]; exact hs) hk1
    · rw [if_neg hc]; simp

theorem whileLoop_fuel_pow (crypt : List Char → List Char → List Char) (argv1 : List Char) :
    ∀ (f1 f2 k index : Nat) (s : St), k < 53 ^ f1 → k < 53 ^ f2 →
      whileLoop crypt argv1 f1 k index s = whileLoop crypt argv1 f2 k index s
  | 0, 0, _, _, _, _, _ => rfl
  | 0, f2 + 1, k, index, s, h1, _ => by
    have hk : ¬ (k > 0 ∧ k % dict_length ≠ 0) := by simp at h1; omega
    rw [whileLoop, whileLoop, if_neg hk]
  | f1 + 1, 0, k, index, s, _, h2 => by
    have hk : ¬ (k > 0 ∧ k % dict_length ≠ 0) := by simp at h2; omega
    rw [whileLoop, whileLoop, if_neg hk]
  | f1 + 1, f2 + 1, k, index, s, h1, h2 => by
    by_cases hc : k > 0 ∧ k % dict_length ≠ 0
    · have d1 : k / dict_length < 53 ^ f1 := by
        rw [dict_length_eq, Nat.div_lt_iff_lt_mul (by decide)]
        rw [pow_succ] at h1; exact h1
      have d2 : k / dict_length < 53 ^ f2 := by
        rw [dict_length_eq, Nat.div_lt_iff_lt_mul (by decide)]
        rw [pow_succ] at h2; exact h2
      have ih : ∀ (index : Nat) (s : St),
          whileLoop crypt argv1 f1 (k / dict_length) index s =
            whileLoop crypt argv1 f2 (k / dict_length) index s :=
        fun index s => whileLoop_fuel_pow crypt argv1 f1 f2 _ index s d1 d2
      simp only [whileLoop, ih]
    · rw [whileLoop, whileLoop, if_neg hc, if_neg hc]

theorem enumW_length_le : ∀ (n i : Nat) (w : List Char), i + n ≤ maxTry →
    (enumW n i w).length ≤ 5 * n
  | 0, _, _, _ => by simp [enumW]
  | n + 1, i, w, hn => by
    have hi : i < 53 ^ 5 := by
      have : maxTry < 53 ^ 5 := by decide
      omega
    have h1 := bodyRuns_le i i 5 hi
    have h2 := enumW_length_le n (i + 1) (convEnd i i 0 w) (by omega)
    rw [enumW, List.length_append, convW_length]
    omega

set_option maxRecDepth 1000000 in
theorem decode_eq_specDecode_small :
    ∀ i : Fin 53, i.val ≠ 0 → decode i.val = some (specDecode i.val) := by
  decide

/-! ## The claims on the conversion loop -/

/-- C14 as stated fails: index 54 gives "aa" where the bijective base-52 numeral is
"ab", and index 53 leaves "Z" in `key` where the numeral is "aa". -/
theorem conversion_not_bijective_numeral :
    decode 54 = some ['a', 'a'] ∧ specDecode 54 = ['a', 'b'] ∧
      decode 53 = some ['Z'] ∧ specDecode 53 = ['a', 'a'] := by
  decide

/-- C14, amended: for every index below `53^4` with no zero base-53 digit the candidate
is `dict[d - 1]` for each base-53 digit `d` of the index, least significant first, not
reversed; for the indices 1 to 52 this is the bijective base-52 numeral of the spec. -/
theorem conversion_spells_digits (i : Nat) (h0 : 0 < i) (hz : zeroFree i) (hi : i < 53 ^ 4) :
    decode i = some (spell i) ∧ (i ≤ 52 → decode i = some (specDecode i)) := by
  obtain ⟨t, hv, _, _, he, hd⟩ := zeroFree_cases h0 hz hi
  refine ⟨by rw [hd, ← he, spell_enc hv], fun h52 => ?_⟩
  exact decode_eq_specDecode_small ⟨i, by omega⟩ (by simp; omega)

/-- C14 amended, at index 485, which spells "hi". -/
theorem conversion_spells_digits_witness : decode 485 = some ['h', 'i'] :=
  (conversion_spells_digits 485 (by decide) (by decide) (by decide)).1

/-- C15 as stated fails: in the run, iteration 55 starts on the buffer "aa" that
iteration 54 left and hands "ba", "ba" to `crypt`; on a fresh buffer it hands over "b",
"ba". -/
theorem decode_not_stateless :
    keyAt 54 = ['a', 'a', NUL, NUL, NUL] ∧
      submits (keyAt 54) 55 = [['b', 'a'], ['b', 'a']] ∧
      submits key0 55 = [['b'], ['b', 'a']] := by
  decide

/-- C15, amended: below index 8042221 the number of strings handed to `crypt` for an
index is the same on the buffer the earlier indices left as on a fresh buffer; and for an
index below `53^4` with no zero base-53 digit so is the last of these strings. -/
theorem last_submit_stateless (i : Nat) (h1 : 1 ≤ i) (hi : i < 8042221) :
    (submits (keyAt (i - 1)) i).length = (submits key0 i).length ∧
      (zeroFree i → i < 53 ^ 4 →
        (submits (keyAt (i - 1)) i).getLast? = some (spell i) ∧
          (submits key0 i).getLast? = some (spell i)) := by
  have hk : key0 = pad [] := by decide
  have e0 : submits key0 i = convW i i 0 [] := by
    rw [hk]; exact submits_pad (by simp [Valid]) (by simp [rep]) hi
  rw [submits_keyAt h1 hi, e0, convW_length, convW_length]
  refine ⟨rfl, fun hz h4 => ?_⟩
  obtain ⟨t, hv, hne, _, he, _⟩ := zeroFree_cases h1 hz h4
  subst he
  obtain ⟨hv1, hr1⟩ := enumEnd_inv (enc t - 1)
  have hwl : (enumEnd (enc t - 1) 1 []).length ≤ t.length := by
    by_contra hlt
    have h5 : rep (t.length + 1) ≤ rep (enumEnd (enc t - 1) 1 []).length :=
      rep_mono (by omega)
    have h3 := enc_lt_rep_succ hv
    omega
  rw [spell_enc hv]
  exact ⟨convW_last_enc hv hne hwl, convW_last_enc hv hne (by simp)⟩

/-- C15 amended, at index 55. -/
theorem last_submit_stateless_witness :
    (submits (keyAt 54) 55).length = (submits key0 55).length :=
  (last_submit_stateless 55 (by decide) (by decide)).1

/-- Every string in the call log of the first embedding, which holds the calls made
while `key` still has its NUL, is non-empty and made of alphabet symbols only; and
whenever the loop body runs, the digit `k % dict_length` is between 1 and 52, so that
`dict` is read at an index in `[0, 51]` and yields a letter, never the NUL. -/
theorem logged_calls_alphabet (crypt : List Char → List Char → List Char) (argc : Nat)
    (argv1 x : List Char) (hx : x ∈ (main crypt argc argv1).calls) (k : Nat)
    (hk : k > 0 ∧ k % dict_length ≠ 0) :
    x ≠ [] ∧ Valid x ∧ 1 ≤ k % dict_length ∧ k % dict_length ≤ 52 ∧
      k % dict_length - 1 < dict.length ∧ k % dict_length - 1 ≤ 51 ∧
      dict.getD (k % dict_length - 1) NUL ∈ dict ∧
      dict.getD (k % dict_length - 1) NUL ≠ NUL := by
  have hlt : k % dict_length < 53 := Nat.mod_lt _ (by decide)
  have hl : dict.length = 52 := rfl
  have hs : dict.getD (k % dict_length - 1) NUL ∈ dict := sym_mem hk.2
  have hxa : x ∈ allW := by
    by_cases ha : argc = 2
    · subst ha
      obtain ⟨rest, e⟩ := main_calls_initial crypt argv1
      rw [e]; exact List.mem_append_left _ hx
    · simp [main, ha] at hx
  obtain ⟨hv, hne⟩ := allW_valid hxa
  exact ⟨hne, hv, by omega, by omega, by omega, by omega, hs,
    fun h => NUL_not_mem_dict (h ▸ hs)⟩

/-- C17 as stated fails: index 53 causes no call of `crypt` and index 54 causes two. -/
theorem calls_per_index_fail :
    53 < maxTry ∧ 54 < maxTry ∧ submits (keyAt 52) 53 = [] ∧
      submits (keyAt 53) 54 = [['a'], ['a', 'a']] := by
  decide

/-- C17, amended: below index 8042221, index `i` causes one call of `crypt` per symbol
it writes: as many calls as `i` has non-zero base-53 digits before its first zero digit.
That is one call for `1 ≤ i ≤ 52` and none for a multiple of 53. -/
theorem calls_per_index (i : Nat) (h1 : 1 ≤ i) (hi : i < 8042221) :
    (submits (keyAt (i - 1)) i).length =
        ((digits i i).takeWhile (fun d => d != 0)).length ∧
      (i ≤ 52 → (submits (keyAt (i - 1)) i).length = 1) ∧
      (i % 53 = 0 → (submits (keyAt (i - 1)) i).length = 0) := by
  rw [submits_keyAt h1 hi, convW_length]
  refine ⟨bodyRuns_eq_takeWhile i i, fun h52 => ?_, fun h53 => ?_⟩
  · obtain ⟨f, rfl⟩ : ∃ f, i = f + 1 := ⟨i - 1, by omega⟩
    have hc : f + 1 > 0 ∧ (f + 1) % dict_length ≠ 0 := by
      rw [dict_length_eq]; omega
    have hd : (f + 1) / dict_length = 0 := by
      rw [dict_length_eq]; omega
    rw [bodyRuns, if_pos hc, hd, bodyRuns_zero]
  · obtain ⟨f, rfl⟩ : ∃ f, i = f + 1 := ⟨i - 1, by omega⟩
    have hc : ¬ (f + 1 > 0 ∧ (f + 1) % dict_length ≠ 0) := by
      rw [dict_length_eq]; omega
    rw [bodyRuns, if_neg hc]

/-- C17 amended, at index 54 with its two calls. -/
theorem calls_per_index_witness :
    (submits (keyAt (54 - 1)) 54).length =
      ((digits 54 54).takeWhile (fun d => d != 0)).length :=
  (calls_per_index 54 (by decide) (by decide)).1

theorem bodyRuns_fuel_irrelevant (dl : Nat) (hdl : 2 ≤ dl) :
    ∀ (f1 f2 k : Nat), k ≤ f1 → k ≤ f2 → bodyRuns dl f1 k = bodyRuns dl f2 k
  | 0, 0, _, _, _ => rfl
  | 0, f2 + 1, k, h1, _ => by
    rw [bodyRuns, bodyRuns, if_neg (by omega)]
  | f1 + 1, 0, k, _, h2 => by
    rw [bodyRuns, bodyRuns, if_neg (by omega)]
  | f1 + 1, f2 + 1, k, h1, h2 => by
    rw [bodyRuns, bodyRuns]
    by_cases hc : k > 0 ∧ k % dl ≠ 0
    · have hd : k / dl < k := Nat.div_lt_self hc.1 (by omega)
      rw [if_pos hc, if_pos hc,
        bodyRuns_fuel_irrelevant dl hdl f1 f2 (k / dl) (by omega) (by omega)]
    · rw [if_neg hc, if_neg hc]

set_option maxRecDepth 100000 in
/-- C18 (the code departs from its own comment): with `dict_length = 3`, after the body
has run from `k = 11` the assignment leaves `k = 3` and the body does not run again,
where the comment says it repeats 3 times; the cases `k = 1` and `k = 4` are as the
comment says.  With the real `dict_length`, index 107 leaves `k = 2` and the body
repeats once: the iteration makes two calls of `crypt` in all. -/
theorem loop_count_comment_wrong :
    (1 / 3 = 0 ∧ bodyRuns 3 (1 / 3) (1 / 3) = 0) ∧
      (4 / 3 = 1 ∧ bodyRuns 3 (4 / 3) (4 / 3) = 1) ∧
      (11 / 3 = 3 ∧ bodyRuns 3 (11 / 3) (11 / 3) = 0) ∧
      (107 / dict_length = 2 ∧
        bodyRuns dict_length (107 / dict_length) (107 / dict_length) = 1 ∧
        submits (keyAt 106) 107 = [['a', 'a'], ['a', 'b']]) := by
  decide

/-- An iteration below index 8042221 that falls through has handed every written prefix
to `crypt`. -/
theorem whileLoop_cont_calls (crypt : List Char → List Char → List Char) (argv1 : List Char)
    {w : List Char} {i : Nat} (hv : Valid w) (hr : rep w.length ≤ i) (hi : i < 8042221)
    (calls : List (List Char)) (s : St)
    (h : whileLoop crypt argv1 i i 0 ⟨pad w, calls⟩ = .cont s) :
    s = ⟨pad (convEnd i i 0 w), calls ++ convW i i 0 w⟩ := by
  have hw5 : w.length ≤ 5 := Nat.le_of_lt (length_lt_five_of_rep hr hi)
  have hi5 : i * 53 ^ 0 < 53 ^ 5 := by
    have : (8042221 : Nat) < 53 ^ 5 := by decide
    omega
  rw [whileLoop_eq_scan _ _ i i 0 w calls hv hw5 (Nat.zero_le _) hi5] at h
  have := scan_cont crypt argv1 _ _ _ _ h
  rw [convW_getLastD] at this
  exact this

/-- C19: for every index `i` below `53^4` whose base-53 digits are all non-zero, the
last string handed to `crypt` in iteration `i` is the string of `dict[d - 1]` for the
digits `d` of `i`, least significant first, one symbol per digit: in the run, where the
buffer holds at most that many symbols before NULs when the iteration starts, and on any
such buffer. -/
theorem last_submit_spells_digits (i : Nat) (h0 : 1 ≤ i) (hz : zeroFree i) (hi : i < 53 ^ 4)
    (w : List Char) (hw : Valid w) (hl : w.length ≤ (digits i i).length) :
    (submits (keyAt (i - 1)) i).getLast? = some (spell i) ∧
      (spell i).length = (digits i i).length ∧
      (submits (pad w) i).getLast? = some (spell i) ∧
      (∃ w0, keyAt (i - 1) = pad w0 ∧ Valid w0 ∧ w0.length ≤ (digits i i).length) ∧
      ∀ (crypt : List Char → List Char → List Char) (argv1 : List Char)
        (calls : List (List Char)) (s : St),
        whileLoop crypt argv1 i i 0 ⟨keyAt (i - 1), calls⟩ = .cont s →
          s.calls.getLast? = some (spell i) ∧ s.key = pad (spell i) := by
  have h8 : i < 8042221 := by
    have : (53 : Nat) ^ 4 < 8042221 := by decide
    omega
  have hm : maxTry = 9999999 := rfl
  have hsl : (spell i).length = (digits i i).length := by simp [spell]
  obtain ⟨t, hv, hne, _, he, _⟩ := zeroFree_cases h0 hz hi
  have hst : spell i = t := by rw [← he, spell_enc hv]
  obtain ⟨hv1, hr1⟩ := enumEnd_inv (i - 1)
  have hwl : (enumEnd (i - 1) 1 []).length ≤ t.length := by
    by_contra hlt
    have h5 : rep (t.length + 1) ≤ rep (enumEnd (i - 1) 1 []).length :=
      rep_mono (by omega)
    have h3 := enc_lt_rep_succ hv
    omega
  have hwt : w.length ≤ t.length := by rw [← hst, hsl]; exact hl
  have hrw : rep w.length ≤ i := by
    have h1 := rep_mono hwt
    have h2 := (enc_bounds t hv).1
    omega
  have hlast : (convW i i 0 (enumEnd (i - 1) 1 [])).getLast? = some t := by
    have := convW_last_enc hv hne (he.symm ▸ hwl)
    rw [he] at this
    exact this
  refine ⟨?_, hsl, ?_, ⟨enumEnd (i - 1) 1 [], keyAt_eq_pad (by omega), hv1, ?_⟩, ?_⟩
  · rw [submits_keyAt h0 h8, hst]
    exact hlast
  · rw [submits_pad hw hrw h8, hst, ← he]
    exact convW_last_enc hv hne hwt
  · rw [← hsl, hst]; exact hwl
  · intro crypt argv1 calls s hs
    rw [keyAt_eq_pad (by omega)] at hs
    have e := whileLoop_cont_calls crypt argv1 hv1 (by omega) h8 calls s hs
    have hend : convEnd i i 0 (enumEnd (i - 1) 1 []) = t := by
      have := (convEnd_enc t [] (enumEnd (i - 1) 1 []) (enc t) hv (he.symm ▸ hwl)
        (Nat.le_refl _)).1
      rw [he] at this
      simpa using this
    have hnn : convW i i 0 (enumEnd (i - 1) 1 []) ≠ [] := by
      intro h0'
      rw [h0'] at hlast
      simp at hlast
    rw [e, hst, hend]
    refine ⟨?_, rfl⟩
    show (calls ++ convW i i 0 (enumEnd (i - 1) 1 [])).getLast? = some t
    rw [List.getLast?_append_of_ne_nil _ hnn]
    exact hlast

/-- C19, at index 485 on the buffer that holds "Z": the last call is on "hi". -/
theorem last_submit_spells_digits_witness :
    (submits (pad ['Z']) 485).getLast? = some (spell 485) :=
  (last_submit_spells_digits 485 (by decide) (by decide) (by decide) ['Z'] (by decide)
    (by decide)).2.2.1

/-- C20: for every index `i` with `1 ≤ i < maxTry` the conversion loop runs its body at
most 5 times (`k` strictly decreases, and five iterations are as good as any larger
bound), no write `key[index]` leaves the 5-byte buffer, and the whole search makes at
most `5 * (maxTry - 1)` calls of `crypt`. -/
theorem conversion_bounded (crypt : List Char → List Char → List Char) (argc : Nat)
    (argv1 : List Char) (i : Nat) (_h1 : 1 ≤ i) (hi : i < maxTry) :
    bodyRuns dict_length i i ≤ 5 ∧
      (∀ k, 0 < k → k / dict_length < k) ∧
      (∀ s, whileLoop crypt argv1 5 i 0 s = whileLoop crypt argv1 i i 0 s) ∧
      (∀ s s1, s.key.length = 5 → whileLoop crypt argv1 i i 0 s ≠ .ret .badWrite s1) ∧
      (main crypt argc argv1).outcome ≠ .badWrite ∧
      (main crypt argc argv1).calls.length ≤ 5 * (maxTry - 1) := by
  have hM : maxTry < 53 ^ 5 := by decide
  have hi5 : i < 53 ^ 5 := by omega
  have hii : i < 53 ^ i := Nat.lt_pow_self (by decide) i
  refine ⟨bodyRuns_le i i 5 hi5, fun k hk => Nat.div_lt_self hk (by decide),
    fun s => whileLoop_fuel_pow crypt argv1 5 i i 0 s hi5 hii,
    fun s s1 hs => whileLoop_no_badWrite crypt argv1 i i 0 s s1 hs (by simpa using hi5),
    ?_, ?_⟩
  · by_cases ha : argc = 2
    · subst ha
      rcases main_cases crypt argv1 with ⟨_, _, _, _, _, _, _, h⟩ | ⟨_, _, _, _, _, _, h⟩ <;>
        rw [h] <;> simp
    · simp [main, ha]
  · by_cases ha : argc = 2
    · subst ha
      obtain ⟨rest, e⟩ := main_calls_initial crypt argv1
      have hlen := enumW_length_le (maxTry - 1) 1 [] (by decide)
      have : allW.length = (main crypt 2 argv1).calls.length + rest.length := by
        rw [e, List.length_append]
      unfold allW at this
      omega
    · simp [main, ha]

/-- C20, at index 8042221, whose conversion runs the body five times. -/
theorem conversion_bounded_witness : bodyRuns dict_length 8042221 8042221 ≤ 5 :=
  (conversion_bounded (fun k _ => k) 2 [] 8042221 (by decide) (by decide)).1

/-! ## The run on a flat memory -/

theorem readKey_pad (beyond : List Char) {w : List Char} (hv : Valid w) (h5 : w.length ≤ 5) :
    readKey beyond (pad w) = seen beyond w := by
  unfold readKey seen
  by_cases h4 : w.length < 5
  · rw [cstr_pad_lt hv h4, if_pos h4]
  · have hp : pad w = w := by
      have h0 : 5 - w.length = 0 := by omega
      simp [pad, h0]
    rw [cstr_pad_ge hv (by omega), if_neg h4, hp]

theorem whileLoopFlat_eq_scan (beyond : List Char)
    (crypt : List Char → List Char → List Char) (argv1 : List Char) :
    ∀ (fuel k index : Nat) (w : List Char) (calls : List (List Char)),
      Valid w → w.length ≤ 5 → index ≤ w.length → k * 53 ^ index < 53 ^ 5 →
      whileLoopFlat beyond crypt argv1 fuel k index ⟨pad w, calls⟩ =
        scanFlat beyond crypt argv1 (convW fuel k index w) w calls
  | 0, k, index, w, calls, _, _, _, _ => by simp [whileLoopFlat, convW, scanFlat]
  | fuel + 1, k, index, w, calls, hv, h5, hi, hk => by
    by_cases hc : k > 0 ∧ k % dict_length ≠ 0
    · have hidx : index < 5 := by
        by_contra hge
        have h1 : 53 ^ 5 ≤ 53 ^ index := Nat.pow_le_pow_right (by decide) (by omega)
        have h2 : 53 ^ index ≤ k * 53 ^ index := Nat.le_mul_of_pos_left _ hc.1
        omega
      have hv1 : Valid (put w index (sym k)) := put_valid hv (sym_mem hc.2)
      have hl1 : (put w index (sym k)).length ≤ 5 := by
        rw [put_length _ _ _ hi]; omega
      have hi1 : index + 1 ≤ (put w index (sym k)).length := by
        rw [put_length _ _ _ hi]; omega
      have hk1 : k / dict_length * 53 ^ (index + 1) < 53 ^ 5 := by
        rw [dict_length_eq, pow_succ]
        calc k / 53 * (53 ^ index * 53) = (k / 53 * 53) * 53 ^ index := by ring
          _ ≤ k * 53 ^ index := Nat.mul_le_mul_right _ (Nat.div_mul_le_self k 53)
          _ < 53 ^ 5 := hk
      have ih := whileLoopFlat_eq_scan beyond crypt argv1 fuel (k / dict_length) (index + 1)
        (put w index (sym k)) (calls ++ [seen beyond (put w index (sym k))]) hv1 hl1 hi1 hk1
      have hset : (pad w).set index (dict.getD (k % dict_length - 1) NUL)
          = pad (put w index (sym k)) := set_pad _ hi hidx
      have hlen : index < (pad w).length := by rw [pad_length h5]; exact hidx
      rw [whileLoopFlat, convW, if_pos hc, if_pos hc, scanFlat]
      simp only [hlen, if_true, hset, readKey_pad beyond hv1 hl1]
      by_cases hh : crypt (seen beyond (put w index (sym k))) salt = argv1
      · rw [if_pos hh, if_pos hh]
      · rw [if_neg hh, if_neg hh, ih]
    · rw [whileLoopFlat, convW, if_neg hc, if_neg hc, scanFlat]

theorem scanFlat_append (beyond : List Char) (crypt : List Char → List Char → List Char)
    (argv1 : List Char) :
    ∀ (l1 l2 : List (List Char)) (w : List Char) (calls : List (List Char)),
      scanFlat beyond crypt argv1 (l1 ++ l2) w calls =
        match scanFlat beyond crypt argv1 l1 w calls with
        | .cont s => scanFlat beyond crypt argv1 l2 (l1.getLastD w) s.calls
        | .ret o s => .ret o s
  | [], l2, w, calls => by simp [scanFlat]
  | a :: l1, l2, w, calls => by
    rw [List.cons_append, scanFlat, scanFlat, List.getLastD_cons]
    by_cases hh : crypt (seen beyond a) salt = argv1
    · rw [if_pos hh, if_pos hh]
    · rw [if_neg hh, if_neg hh]
      exact scanFlat_append beyond crypt argv1 l1 l2 a _

/-- The two ways a scan on a flat memory can end: at the first written prefix whose
string hashes to `argv1`, or behind the last one when none does. -/
theorem scanFlat_spec (beyond : List Char) (crypt : List Char → List Char → List Char)
    (argv1 : List Char) :
    ∀ (ws : List (List Char)) (w : List Char) (calls : List (List Char)),
      ((∀ x ∈ ws, crypt (seen beyond x) salt ≠ argv1) ∧
          scanFlat beyond crypt argv1 ws w calls =
            .cont ⟨pad (ws.getLastD w), calls ++ ws.map (seen beyond)⟩) ∨
        (∃ pre c post, ws = pre ++ c :: post ∧
          (∀ x ∈ pre, crypt (seen beyond x) salt ≠ argv1) ∧
          crypt (seen beyond c) salt = argv1 ∧
          scanFlat beyond crypt argv1 ws w calls =
            .ret (.found (seen beyond c))
              ⟨pad c, calls ++ (pre.map (seen beyond) ++ [seen beyond c])⟩)
  | [], w, calls => by
    left; simp [scanFlat]
  | a :: ws, w, calls => by
    rw [scanFlat]
    by_cases hh : crypt (seen beyond a) salt = argv1
    · rw [if_pos hh]
      right
      exact ⟨[], a, ws, rfl, by simp, hh, by simp⟩
    · rw [if_neg hh]
      rcases scanFlat_spec beyond crypt argv1 ws a (calls ++ [seen beyond a]) with h | h
      · left
        obtain ⟨h1, h2⟩ := h
        refine ⟨?_, ?_⟩
        · intro x hx
          rcases List.mem_cons.mp hx with e | e
          · subst e; exact hh
          · exact h1 x e
        · rw [h2, List.getLastD_cons]; simp
      · right
        obtain ⟨pre, c, post, e, h1, h3, h5⟩ := h
        refine ⟨a :: pre, c, post, by rw [e]; rfl, ?_, h3, by rw [h5]; simp⟩
        intro x hx
        rcases List.mem_cons.mp hx with e | e
        · subst e; exact hh
        · exact h1 x e

theorem scanFlat_cont (beyond : List Char) (crypt : List Char → List Char → List Char)
    (argv1 : List Char) (l : List (List Char)) (w : List Char) (calls : List (List Char))
    (s : St) (h : scanFlat beyond crypt argv1 l w calls = .cont s) :
    s = ⟨pad (l.getLastD w), calls ++ l.map (seen beyond)⟩ := by
  rcases scanFlat_spec beyond crypt argv1 l w calls with h1 | ⟨_, _, _, _, _, _, h1⟩
  · rw [h1.2] at h
    exact (Res.cont.inj h).symm
  · rw [h1] at h; cases h

theorem forLoopFlat_eq_scan (beyond : List Char) (crypt : List Char → List Char → List Char)
    (argv1 : List Char) :
    ∀ (n i : Nat) (w : List Char) (calls : List (List Char)),
      Valid w → rep w.length ≤ i → i + n ≤ maxTry →
      forLoopFlat beyond crypt argv1 n i ⟨pad w, calls⟩ =
        scanFlat beyond crypt argv1 (enumW n i w) w calls
  | 0, i, w, calls, _, _, _ => by simp [forLoopFlat, enumW, scanFlat]
  | n + 1, i, w, calls, hv, hr, hn => by
    have hw5 : w.length ≤ 5 := rep_length_le_five (by omega)
    have hi5 : i * 53 ^ 0 < 53 ^ 5 := by
      have : maxTry < 53 ^ 5 := by decide
      omega
    obtain ⟨_, _, c3, c4, _⟩ := convW_inv i i i 0 w hv (Nat.zero_le _) (by simp [rep]) hr
    rw [forLoopFlat, enumW, scanFlat_append,
      whileLoopFlat_eq_scan beyond crypt argv1 i i 0 w calls hv hw5 (Nat.zero_le _) hi5]
    cases h : scanFlat beyond crypt argv1 (convW i i 0 w) w calls with
    | ret o s => rfl
    | cont s =>
      have hs := scanFlat_cont beyond crypt argv1 _ _ _ _ h
      rw [convW_getLastD] at hs ⊢
      subst hs
      exact forLoopFlat_eq_scan beyond crypt argv1 n (i + 1) _ _ c3 (Nat.le_succ_of_le c4)
        (by omega)

theorem mainFlat_eq_scan (beyond : List Char) (crypt : List Char → List Char → List Char)
    (argv1 : List Char) :
    mainFlat beyond crypt 2 argv1 =
      match scanFlat beyond crypt argv1 allW [] [] with
      | .cont s => ⟨.exhausted, s.calls⟩
      | .ret o s => ⟨o, s.calls⟩ := by
  have h := forLoopFlat_eq_scan beyond crypt argv1 (maxTry - 1) 1 [] [] (by simp [Valid])
    (by simp [rep]) (by decide)
  have hk : key0 = pad [] := by decide
  unfold mainFlat allW
  rw [if_neg (by decide), hk, h]

/-- The two ways a run with `argc = 2` ends on a flat memory. -/
theorem mainFlat_cases (beyond : List Char) (crypt : List Char → List Char → List Char)
    (argv1 : List Char) :
    ((∀ x ∈ allW, crypt (seen beyond x) salt ≠ argv1) ∧
        mainFlat beyond crypt 2 argv1 = ⟨.exhausted, allW.map (seen beyond)⟩) ∨
      (∃ pre c post, allW = pre ++ c :: post ∧
        (∀ x ∈ pre, crypt (seen beyond x) salt ≠ argv1) ∧
        crypt (seen beyond c) salt = argv1 ∧
        mainFlat beyond crypt 2 argv1 =
          ⟨.found (seen beyond c), pre.map (seen beyond) ++ [seen beyond c]⟩) := by
  rw [mainFlat_eq_scan]
  rcases scanFlat_spec beyond crypt argv1 allW [] [] with h | h
  · left
    exact ⟨h.1, by rw [h.2]; simp⟩
  · right
    obtain ⟨pre, c, post, e, h1, h3, h4⟩ := h
    exact ⟨pre, c, post, e, h1, h3, by rw [h4]; simp⟩

theorem convertCalls_pad (beyond : List Char) :
    ∀ (fuel k index : Nat) (w : List Char), Valid w → w.length ≤ 5 → index ≤ w.length →
      k * 53 ^ index < 53 ^ 5 →
      convertCalls beyond fuel k index (pad w) = (convW fuel k index w).map (seen beyond)
  | 0, _, _, _, _, _, _, _ => rfl
  | fuel + 1, k, index, w, hv, h5, hi, hk => by
    rw [convertCalls, convW]
    by_cases hc : k > 0 ∧ k % dict_length ≠ 0
    · have hidx : index < 5 := by
        by_contra hge
        have h1 : 53 ^ 5 ≤ 53 ^ index := Nat.pow_le_pow_right (by decide) (by omega)
        have h2 : 53 ^ index ≤ k * 53 ^ index := Nat.le_mul_of_pos_left _ hc.1
        omega
      have hv1 : Valid (put w index (sym k)) := put_valid hv (sym_mem hc.2)
      have hl1 : (put w index (sym k)).length ≤ 5 := by
        rw [put_length _ _ _ hi]; omega
      have hi1 : index + 1 ≤ (put w index (sym k)).length := by
        rw [put_length _ _ _ hi]; omega
      have hk1 : k / dict_length * 53 ^ (index + 1) < 53 ^ 5 := by
        rw [dict_length_eq, pow_succ]
        calc k / 53 * (53 ^ index * 53) = (k / 53 * 53) * 53 ^ index := by ring
          _ ≤ k * 53 ^ index := Nat.mul_le_mul_right _ (Nat.div_mul_le_self k 53)
          _ < 53 ^ 5 := hk
      have hset : (pad w).set index (dict.getD (k % dict_length - 1) NUL)
          = pad (put w index (sym k)) := set_pad _ hi hidx
      rw [if_pos hc, if_pos hc, hset, readKey_pad beyond hv1 hl1,
        convertCalls_pad beyond fuel _ _ _ hv1 hl1 hi1 hk1, List.map_cons]
    · rw [if_neg hc, if_neg hc]; rfl

theorem forCalls_pad (beyond : List Char) :
    ∀ (n i : Nat) (w : List Char), Valid w → rep w.length ≤ i → i + n ≤ maxTry →
      forCalls beyond n i (pad w) = (enumW n i w).map (seen beyond)
  | 0, _, _, _, _, _ => rfl
  | n + 1, i, w, hv, hr, hn => by
    have hw5 : w.length ≤ 5 := rep_length_le_five (by omega)
    have hi5 : i * 53 ^ 0 < 53 ^ 5 := by
      have : maxTry < 53 ^ 5 := by decide
      omega
    obtain ⟨_, _, c3, c4, _⟩ := convW_inv i i i 0 w hv (Nat.zero_le _) (by simp [rep]) hr
    rw [forCalls, enumW, List.map_append,
      convertCalls_pad beyond i i 0 w hv hw5 (Nat.zero_le _) hi5,
      convert_pad i i 0 w (Nat.zero_le _) hi5,
      forCalls_pad beyond n (i + 1) _ c3 (Nat.le_succ_of_le c4) (by omega)]

theorem submitted_eq (beyond : List Char) : submitted beyond = allW.map (seen beyond) := by
  have hk : key0 = pad [] := by decide
  unfold submitted allW
  rw [hk]
  exact forCalls_pad beyond (maxTry - 1) 1 [] (by simp [Valid]) (by simp [rep]) (by decide)

/-- The first element with a property splits a list in one way only. -/
theorem first_split_unique {p : List Char → Prop} :
    ∀ (a b : List (List Char)) (c d : List Char) (r t : List (List Char)),
      a ++ c :: r = b ++ d :: t → (∀ x ∈ a, ¬ p x) → p c → (∀ x ∈ b, ¬ p x) → p d →
      a = b ∧ c = d
  | [], [], c, d, r, t, e, _, _, _, _ => by
    simp only [List.nil_append, List.cons.injEq] at e
    exact ⟨rfl, e.1⟩
  | [], y :: b, c, d, r, t, e, _, hc, hb, _ => by
    simp only [List.nil_append, List.cons_append, List.cons.injEq] at e
    exact absurd (e.1 ▸ hc) (hb y (List.mem_cons_self _ _))
  | x :: a, [], c, d, r, t, e, ha, _, _, hd => by
    simp only [List.nil_append, List.cons_append, List.cons.injEq] at e
    exact absurd (e.1 ▸ hd) (ha x (List.mem_cons_self _ _))
  | x :: a, y :: b, c, d, r, t, e, ha, hc, hb, hd => by
    simp only [List.cons_append, List.cons.injEq] at e
    obtain ⟨h1, h2⟩ := first_split_unique a b c d r t e.2
      (fun z hz => ha z (List.mem_cons_of_mem _ hz)) hc
      (fun z hz => hb z (List.mem_cons_of_mem _ hz)) hd
    exact ⟨by rw [e.1, h1], h2⟩

theorem seen_of_lt (beyond : List Char) {x : List Char} (h : x.length < 5) :
    seen beyond x = x := by
  rw [seen, if_pos h]

theorem map_seen_of_lt (beyond : List Char) :
    ∀ (l : List (List Char)), (∀ x ∈ l, x.length < 5) → l.map (seen beyond) = l
  | [], _ => rfl
  | a :: l, h => by
    rw [List.map_cons, seen_of_lt beyond (h a (List.mem_cons_self _ _)),
      map_seen_of_lt beyond l (fun x hx => h x (List.mem_cons_of_mem _ hx))]

/-- The two embeddings agree on every run that the first one follows to its `return`:
a run that finds a key before any call on an unterminated `key` is the same run on a
flat memory, whatever follows `key` there. -/
theorem mainFlat_eq_main_of_found (beyond : List Char)
    (crypt : List Char → List Char → List Char) (argv1 c : List Char)
    (h : (main crypt 2 argv1).outcome = .found c) :
    mainFlat beyond crypt 2 argv1 = main crypt 2 argv1 := by
  rcases main_cases crypt argv1 with ⟨pre, c1, post, e, hp, h5, h3, hm⟩ | ⟨_, _, _, _, _, _, hm⟩
  · have hpre : ∀ x ∈ pre, ¬ crypt (seen beyond x) salt = argv1 := by
      intro x hx
      rw [seen_of_lt beyond (hp x hx).1]
      exact (hp x hx).2
    have hc1 : crypt (seen beyond c1) salt = argv1 := by
      rw [seen_of_lt beyond h5]; exact h3
    rcases mainFlat_cases beyond crypt argv1 with ⟨hn, _⟩ | ⟨pre2, c2, post2, e2, hp2, h32, hm2⟩
    · exact absurd hc1 (hn c1 (by rw [e]; simp))
    · obtain ⟨e3, e4⟩ := first_split_unique (p := fun x => crypt (seen beyond x) salt = argv1)
        pre pre2 c1 c2 post post2 (e.symm.trans e2) hpre hc1 hp2 h32
      rw [hm2, hm, ← e3, ← e4, seen_of_lt beyond h5,
        map_seen_of_lt beyond pre (fun x hx => (hp x hx).1)]
  · rw [hm] at h; simp at h

/-- Every string `crypt` reads in a run on a flat memory is what is seen of a written
prefix: a non-empty string of at most four alphabet symbols, or five alphabet symbols
followed by `beyond`. -/
theorem flat_calls_seen (beyond : List Char) (crypt : List Char → List Char → List Char)
    (argv1 x : List Char) (hx : x ∈ (mainFlat beyond crypt 2 argv1).calls) :
    ∃ w, w ∈ allW ∧ Valid w ∧ w ≠ [] ∧ x = seen beyond w := by
  rcases mainFlat_cases beyond crypt argv1 with ⟨_, hm⟩ | ⟨pre, c, post, e, _, _, hm⟩
  · rw [hm] at hx
    obtain ⟨w, hw, rfl⟩ := List.mem_map.mp hx
    exact ⟨w, hw, (allW_valid hw).1, (allW_valid hw).2, rfl⟩
  · rw [hm] at hx
    have hx2 : x ∈ (pre ++ [c]).map (seen beyond) := by simpa using hx
    obtain ⟨w, hw, rfl⟩ := List.mem_map.mp hx2
    have hwa : w ∈ allW := by
      rw [e]
      rcases List.mem_append.mp hw with h | h
      · exact List.mem_append_left _ h
      · simp at h; subst h; simp
    exact ⟨w, hwa, (allW_valid hwa).1, (allW_valid hwa).2, rfl⟩

/-- C2: on a flat memory, for every target and every oracle, the search ends in
`found c` with `c` the first of the submitted strings, in call order, whose hash is the
target, `c` being its last call of `crypt`; or, when none of the strings submitted for
the indices `1 .. 9999998` hashes to the target, in `exhausted` after all of them.  It
ends in `exhausted` exactly in that case. -/
theorem search_first_match (beyond : List Char) (crypt : List Char → List Char → List Char)
    (argv1 : List Char) :
    ((∃ before c after, submitted beyond = before ++ c :: after ∧
          (∀ x ∈ before, crypt x salt ≠ argv1) ∧ crypt c salt = argv1 ∧
          mainFlat beyond crypt 2 argv1 = ⟨.found c, before ++ [c]⟩) ∨
        ((∀ x ∈ submitted beyond, crypt x salt ≠ argv1) ∧
          mainFlat beyond crypt 2 argv1 = ⟨.exhausted, submitted beyond⟩)) ∧
      ((mainFlat beyond crypt 2 argv1).outcome = .exhausted ↔
        ∀ x ∈ submitted beyond, crypt x salt ≠ argv1) ∧
      ((mainFlat beyond crypt 2 argv1).outcome = .exhausted →
        (mainFlat beyond crypt 2 argv1).outcome.status = some 1 ∧
          (mainFlat beyond crypt 2 argv1).outcome.printed = some "No match found.\n".toList) := by
  rw [submitted_eq]
  rcases mainFlat_cases beyond crypt argv1 with ⟨hn, hm⟩ | ⟨pre, c, post, e, hp, h3, hm⟩
  · have hall : ∀ x ∈ allW.map (seen beyond), crypt x salt ≠ argv1 := by
      intro x hx
      obtain ⟨w, hw, rfl⟩ := List.mem_map.mp hx
      exact hn w hw
    refine ⟨Or.inr ⟨hall, hm⟩, ⟨fun _ => hall, fun _ => by rw [hm]⟩, fun _ => ?_⟩
    rw [hm]
    exact ⟨rfl, rfl⟩
  · have hpre : ∀ x ∈ pre.map (seen beyond), crypt x salt ≠ argv1 := by
      intro x hx
      obtain ⟨w, hw, rfl⟩ := List.mem_map.mp hx
      exact hp w hw
    refine ⟨Or.inl ⟨pre.map (seen beyond), seen beyond c, post.map (seen beyond), ?_, hpre, h3,
      hm⟩, ⟨fun ho => ?_, fun hno => ?_⟩, fun ho => ?_⟩
    · rw [e]; simp
    · rw [hm] at ho; simp at ho
    · exact absurd h3 (hno _ (List.mem_map.mpr ⟨c, by rw [e]; simp, rfl⟩))
    · rw [hm] at ho; simp at ho

/-- C16 (the code departs from it): when no string hashes to `argv[1]`, the run comes to
a call of `crypt` on a `key` whose five bytes are all symbols.  No NUL is left in `key`,
so `key` holds no string there, and what `crypt` reads on a flat memory is "aaaaa"
followed by whatever follows `key`. -/
theorem unterminated_key_call (beyond : List Char)
    (crypt : List Char → List Char → List Char) (argv1 : List Char)
    (h : ∀ x, crypt x salt ≠ argv1) :
    (main crypt 2 argv1).outcome = .overrun ∧
      cstr ['a', 'a', 'a', 'a', 'a'] = none ∧
      (['a', 'a', 'a', 'a', 'a'] ++ beyond) ∈ (mainFlat beyond crypt 2 argv1).calls ∧
      ((∃ b ∈ beyond, b ∉ dict) → ¬ Valid (['a', 'a', 'a', 'a', 'a'] ++ beyond)) := by
  refine ⟨?_, by decide, ?_, ?_⟩
  · rcases main_cases crypt argv1 with ⟨_, c, _, _, _, _, h3, _⟩ | ⟨_, _, _, _, _, _, hm⟩
    · exact absurd h3 (h c)
    · rw [hm]
  · have h5 : ['a', 'a', 'a', 'a', 'a'] ∈ allW := mem_allW (by decide) (by decide) (by decide)
    rcases mainFlat_cases beyond crypt argv1 with ⟨_, hm⟩ | ⟨_, c, _, _, _, h3, _⟩
    · rw [hm]
      exact List.mem_map.mpr ⟨_, h5, by simp [seen]⟩
    · exact absurd h3 (h _)
  · rintro ⟨b, hb, hd⟩ hv
    exact hd (hv b (List.mem_append_right _ hb))

/-- C16, at the oracle that hashes everything to the empty string, the target "x", and
the salt "50" lying right behind `key`: `crypt` reads "aaaaa50". -/
theorem unterminated_key_call_witness :
    (main (fun _ _ => []) 2 ['x']).outcome = .overrun ∧
      (['a', 'a', 'a', 'a', 'a'] ++ ['5', '0']) ∈
        (mainFlat ['5', '0'] (fun _ _ => []) 2 ['x']).calls ∧
      ¬ Valid (['a', 'a', 'a', 'a', 'a'] ++ ['5', '0']) :=
  have h : ∀ x : List Char, (fun (_ _ : List Char) => ([] : List Char)) x salt ≠ ['x'] :=
    fun _ => by simp
  have t := unterminated_key_call ['5', '0'] (fun _ _ => []) ['x'] h
  ⟨t.1, t.2.2.1, t.2.2.2 ⟨'5', by decide, by decide⟩⟩

end Crack

namespace BinarySearch

/-! ## Binary search -/

theorem binary_search_finds (value : Int) (values : Nat → Int) (n : Int)
    (hs : SortedUpTo values n) (hn : n ≤ 1073741824) :
    ∀ (depth : Nat) (low high : Int), 0 ≤ low → high < n → high - low < depth →
      (∃ i : Nat, low ≤ (i : Int) ∧ (i : Int) ≤ high ∧ values i = value) →
      binary_search value values n depth low high = .ret true
  | 0, low, high, _, _, hd, ⟨i, h1, h2, _⟩ => by omega
  | depth + 1, low, high, hl, hh, hd, ⟨i, h1, h2, hv⟩ => by
    have hmid : (low + high).tdiv 2 = (low + high) / 2 :=
      Int.tdiv_eq_ediv (by omega) (by decide)
    have hov : ¬ (low + high < INT_MIN ∨ INT_MAX < low + high) := by
      unfold INT_MIN INT_MAX; omega
    have hb : ¬ ((low + high) / 2 < 0 ∨ n ≤ (low + high) / 2) := by omega
    have hnat : (((low + high) / 2).toNat : Int) = (low + high) / 2 :=
      Int.toNat_of_nonneg (by omega)
    rw [binary_search, if_neg hov]
    simp only [hmid, if_neg hb]
    by_cases he : values ((low + high) / 2).toNat = value
    · rw [if_pos he]
    · rw [if_neg he]
      by_cases hg : values ((low + high) / 2).toNat > value
      · rw [if_pos hg]
        have hlt : (i : Int) < (low + high) / 2 := by
          by_contra hge
          have hle : ((low + high) / 2).toNat ≤ i := by omega
          have := hs _ i hle (by omega)
          omega
        exact binary_search_finds value values n hs hn depth low _ hl (by omega) (by omega)
          ⟨i, h1, by omega, hv⟩
      · rw [if_neg hg]
        have hgt : (low + high) / 2 < (i : Int) := by
          by_contra hge
          have hle : i ≤ ((low + high) / 2).toNat := by omega
          have := hs i _ hle (by omega)
          omega
        exact binary_search_finds value values n hs hn depth _ high (by omega) hh (by omega)
          ⟨i, by omega, h2, hv⟩

/-- On an array of at most `2^30` sorted `int`s, `search` finds a value that occurs in
it, at every recursion depth from `n` on, and so without a read outside the array. -/
theorem search_finds (value : Int) (values : Nat → Int) (n : Int)
    (hs : SortedUpTo values n) (hn : n ≤ 1073741824)
    (hv : ∃ i : Nat, (i : Int) < n ∧ values i = value) (depth : Nat) (hd : n ≤ depth) :
    search depth value values n = .ret true := by
  obtain ⟨i, hi, he⟩ := hv
  have h := binary_search_finds value values n hs hn depth 0 (n - 1) (by omega) (by omega)
    (by omega) ⟨i, by omega, by omega, he⟩
  have h0 : ¬ (n - 1 < INT_MIN) := by unfold INT_MIN; omega
  rw [search, if_neg h0, h]

theorem binary_search_never_false (value : Int) (values : Nat → Int) (n : Int) :
    ∀ (depth : Nat) (low high : Int),
      binary_search value values n depth low high ≠ .ret false
  | 0, _, _ => by simp [binary_search]
  | depth + 1, low, high => by
    rw [binary_search]
    split
    · simp
    · simp only []
      split
      · simp
      · split
        · simp
        · split
          · exact binary_search_never_false value values n depth _ _
          · exact binary_search_never_false value values n depth _ _

theorem search_never_false (depth : Nat) (value : Int) (values : Nat → Int) (n : Int) :
    search depth value values n ≠ .ret false := by
  have h := binary_search_never_false value values n depth 0 (n - 1)
  rw [search]
  split
  · simp
  · split <;> simp_all

/-- A call that has ended keeps its result at every larger recursion depth. -/
theorem binary_search_depth_mono (value : Int) (values : Nat → Int) (n : Int) :
    ∀ (depth : Nat) (low high : Int) (r : Result),
      binary_search value values n depth low high = r → r ≠ .unfinished →
      ∀ extra, binary_search value values n (depth + extra) low high = r
  | 0, _, _, r, h, hr, _ => by
    rw [binary_search] at h
    exact absurd h.symm hr
  | depth + 1, low, high, r, h, hr, extra => by
    have e : depth + 1 + extra = (depth + extra) + 1 := by omega
    rw [e, binary_search]
    rw [binary_search] at h
    split
    · rename_i hc; rw [if_pos hc] at h; exact h
    · rename_i hc
      rw [if_neg hc] at h
      simp only [] at h ⊢
      split
      · rename_i hc2; rw [if_pos hc2] at h; exact h
      · rename_i hc2
        rw [if_neg hc2] at h
        split
        · rename_i hc3; rw [if_pos hc3] at h; exact h
        · rename_i hc3
          rw [if_neg hc3] at h
          split
          · rename_i hc4
            rw [if_pos hc4] at h
            exact binary_search_depth_mono value values n depth _ _ r h hr extra
          · rename_i hc4
            rw [if_neg hc4] at h
            exact binary_search_depth_mono value values n depth _ _ r h hr extra

theorem haystack_loop : ∀ depth, binary_search 10 haystack 9 depth 9 8 = .unfinished
  | 0 => rfl
  | depth + 1 => by
    have ih := haystack_loop depth
    rw [binary_search, if_neg (by decide)]
    simp only []
    rw [if_neg (by decide), if_neg (by decide), if_neg (by decide)]
    exact ih

/-- The `main` of `binary_search.c` finds its needle 8 and returns 0. -/
theorem main_finds_needle : main 9 = some 0 := by decide

/-- C11 (the code departs from it): on the sorted array `0, 1, ..., 2^30` of
`n = 2^30 + 1` ints, the search for the value `2^30`, which is at the last position,
does not return `true`: at `low = high = 2^30` the sum `low + high` overflows `int`. -/
theorem search_overflows :
    SortedUpTo (fun i => (i : Int)) 1073741825 ∧
      (fun i : Nat => (i : Int)) 1073741824 = 1073741824 ∧
      ∀ extra, search (31 + extra) 1073741824 (fun i => (i : Int)) 1073741825 = .overflow := by
  refine ⟨fun i j hij _ => by simpa using hij, rfl, fun extra => ?_⟩
  have h : binary_search 1073741824 (fun i => (i : Int)) 1073741825 31 0 (1073741825 - 1) =
      .overflow := by decide
  have h2 := binary_search_depth_mono _ _ _ _ _ _ _ h (by simp) extra
  rw [search, if_neg (by decide), h2]

/-- C12 (the code departs from it): `binary_search` has no case for an empty range.  The
search for 10 in the haystack of `main` recurses on the range `low = 9, high = 8` for
ever; on an array of no ints the search reads `values[0]`; and no call returns
`false`. -/
theorem absent_needle_never_returns :
    (∀ depth, search depth 10 haystack 9 = .unfinished) ∧
      (∀ depth, search (depth + 1) 3 (fun _ => 5) 0 = .outOfBounds 0) ∧
      ∀ depth value values n, search depth value values n ≠ .ret false := by
  refine ⟨fun depth => ?_, fun depth => ?_, search_never_false⟩
  · have h0 : ¬ ((9 : Int) - 1 < INT_MIN) := by decide
    rw [search, if_neg h0]
    have hb : binary_search 10 haystack 9 depth 0 (9 - 1) = .unfinished := by
      match depth with
      | 0 => rfl
      | 1 => decide
      | 2 => decide
      | 3 => decide
      | d + 4 =>
        have ih := haystack_loop d
        rw [binary_search, if_neg (by decide)]
        simp only []
        rw [if_neg (by decide), if_neg (by decide), if_neg (by decide)]
        rw [binary_search, if_neg (by decide)]
        simp only []
        rw [if_neg (by decide), if_neg (by decide), if_neg (by decide)]
        rw [binary_search, if_neg (by decide)]
        simp only []
        rw [if_neg (by decide), if_neg (by decide), if_neg (by decide)]
        rw [binary_search, if_neg (by decide)]
        simp only []
        rw [if_neg (by decide), if_neg (by decide), if_neg (by decide)]
        exact ih
    rw [hb]
  · rw [search, if_neg (by decide), binary_search, if_neg (by decide)]
    simp only []
    rw [if_pos (by decide)]
    rfl

end BinarySearch

namespace CountSort

/-! ## Counting sort -/

theorem getD_setD (a : Array Int) (i j : Nat) (x : Int) (h : i < a.size) :
    (a.setD i x).getD j 0 = if j = i then x else a.getD j 0 := by
  have e1 : a.setD i x = a.set ⟨i, h⟩ x := by simp [Array.setD, h]
  rw [e1, Array.getD_eq_get?, Array.getD_eq_get?, Array.get?_set]
  by_cases e : i = j
  · rw [if_pos e, if_pos e.symm]; rfl
  · rw [if_neg e, if_neg (fun h => e h.symm)]

theorem getD_mkArray (n j : Nat) : (mkArray n (0 : Int)).getD j 0 = 0 := by
  by_cases hj : j < n <;> simp [Array.getD, hj]

theorem count_take_succ (values : List Int) (k : Nat) (hk : k < values.length) (x : Int) :
    (values.take (k + 1)).count x =
      (values.take k).count x + if values[k] = x then 1 else 0 := by
  rw [List.take_succ, List.getElem?_eq_getElem hk, List.count_append]
  by_cases e : values[k] = x
  · simp [e]
  · rw [if_neg e]
    have : List.count x [values[k]] = 0 :=
      List.count_eq_zero.mpr (by simpa using fun h => e h.symm)
    simpa using this

theorem count_take_le (values : List Int) (k : Nat) (x : Int) :
    (values.take k).count x ≤ k := by
  have := List.count_le_length x (values.take k)
  have := List.length_take_le k values
  omega

theorem count_take_lt (values : List Int) (k : Nat) (hk : k < values.length) :
    (values.take k).count values[k] < values.count values[k] := by
  have h1 := count_take_succ values k hk values[k]
  have h2 : (values.take (k + 1)).count values[k] ≤ values.count values[k] :=
    (List.take_sublist _ _).count_le _
  simp at h1
  omega

theorem countLoop_spec (values : List Int) (hr : InRange values)
    (hn : (values.length : Int) ≤ INT_MAX) :
    ∀ (rem k : Nat) (c : Array Int), k + rem = values.length → c.size = MAX →
      (∀ j : Nat, c.getD j 0 = ((values.take k).count (j : Int) : Nat)) →
      ∃ c1, countLoop values rem k c = some c1 ∧ c1.size = MAX ∧
        ∀ j : Nat, c1.getD j 0 = (values.count (j : Int) : Nat)
  | 0, k, c, hk, hs, hc => by
    refine ⟨c, rfl, hs, fun j => ?_⟩
    rw [hc j, List.take_of_length_le (by omega)]
  | rem + 1, k, c, hk, hs, hc => by
    have hlt : k < values.length := by omega
    obtain ⟨hv0, hvM⟩ := hr values[k] (List.getElem_mem _)
    have hnat : (values[k].toNat : Int) = values[k] := Int.toNat_of_nonneg hv0
    have hb : ¬ (values[k] < 0 ∨ (c.size : Int) ≤ values[k]) := by rw [hs]; omega
    have hidx : values[k].toNat < c.size := by rw [hs]; omega
    have hcv := hc values[k].toNat
    rw [hnat] at hcv
    have hle := count_take_le values k values[k]
    have ho : ¬ (INT_MAX ≤ c.getD values[k].toNat 0) := by
      rw [hcv]; omega
    rw [countLoop, List.getElem?_eq_getElem hlt]
    simp only [if_neg hb, if_neg ho]
    apply countLoop_spec values hr hn rem (k + 1) _ (by omega) (by simpa using hs)
    intro j
    rw [getD_setD _ _ _ _ hidx, count_take_succ values k hlt, hc j]
    by_cases e : j = values[k].toNat
    · have e2 : values[k] = (j : Int) := by omega
      rw [if_pos e, if_pos e2, ← e, hc j]
      push_cast
      rfl
    · have e2 : ¬ values[k] = (j : Int) := by omega
      rw [if_neg e, if_neg e2]
      rfl

theorem lt_zero (values : List Int) (hr : InRange values) : lt values 0 = 0 := by
  unfold lt
  rw [List.countP_eq_zero]
  intro x hx
  have := (hr x hx).1
  simp only [Nat.cast_zero, decide_eq_true_eq]
  omega

theorem lt_succ (values : List Int) (j : Nat) :
    lt values (j + 1) = lt values j + values.count (j : Int) := by
  unfold lt
  induction values with
  | nil => rfl
  | cons x xs ih =>
    rw [List.countP_cons, List.countP_cons, List.count_cons, ih]
    simp only [decide_eq_true_eq, beq_iff_eq]
    split_ifs <;> omega

theorem lt_le_length (values : List Int) (j : Nat) : lt values j ≤ values.length :=
  List.countP_le_length _

theorem lt_MAX (values : List Int) (hr : InRange values) : lt values MAX = values.length := by
  unfold lt
  rw [List.countP_eq_length]
  intro x hx
  simpa using (hr x hx).2

theorem lt_mono (values : List Int) {a b : Nat} (h : a ≤ b) : lt values a ≤ lt values b := by
  induction h with
  | refl => exact Nat.le_refl _
  | step _ ih => rw [lt_succ]; omega

theorem sumLoop_spec (values : List Int) (hn : (values.length : Int) ≤ INT_MAX) :
    ∀ (rem m : Nat) (c : Array Int), 1 ≤ m → m + rem = MAX → c.size = MAX →
      (∀ j : Nat, j < m → c.getD j 0 = (lt values (j + 1) : Nat)) →
      (∀ j : Nat, m ≤ j → c.getD j 0 = (values.count (j : Int) : Nat)) →
      ∃ c2, sumLoop rem m c = some c2 ∧ c2.size = MAX ∧
        ∀ j : Nat, j < MAX → c2.getD j 0 = (lt values (j + 1) : Nat)
  | 0, m, c, _, hm, hs, h1, _ => ⟨c, rfl, hs, fun j hj => h1 j (by omega)⟩
  | rem + 1, m, c, hm1, hm, hs, h1, h2 => by
    have hb : ¬ c.size ≤ m := by omega
    have hsum : c.getD m 0 + c.getD (m - 1) 0 = (lt values (m + 1) : Nat) := by
      rw [h2 m (Nat.le_refl _), h1 (m - 1) (by omega), lt_succ values m]
      have e : m - 1 + 1 = m := by omega
      rw [e]; push_cast; omega
    have hle := lt_le_length values (m + 1)
    have ho : ¬ (INT_MAX < c.getD m 0 + c.getD (m - 1) 0) := by
      rw [hsum]; omega
    rw [sumLoop, if_neg hb, if_neg ho]
    apply sumLoop_spec values hn rem (m + 1) _ (by omega) (by omega) (by simpa using hs)
    · intro j hj
      rw [getD_setD _ _ _ _ (by omega)]
      by_cases e : j = m
      · rw [if_pos e, hsum, e]
      · rw [if_neg e]; exact h1 j (by omega)
    · intro j hj
      rw [getD_setD _ _ _ _ (by omega), if_neg (by omega)]
      exact h2 j (by omega)

theorem shiftLoop_spec :
    ∀ (p : Nat) (c : Array Int), p < c.size →
      (shiftLoop p c).size = c.size ∧
        ∀ j : Nat, (shiftLoop p c).getD j 0 =
          if 1 ≤ j ∧ j ≤ p then c.getD (j - 1) 0 else c.getD j 0
  | 0, c, _ => ⟨rfl, fun j => by rw [shiftLoop, if_neg (by omega)]⟩
  | p + 1, c, hp => by
    obtain ⟨ih1, ih2⟩ := shiftLoop_spec p (c.setD (p + 1) (c.getD p 0))
      (by rw [Array.size_setD]; omega)
    rw [shiftLoop]
    refine ⟨by rw [ih1, Array.size_setD], fun j => ?_⟩
    rw [ih2 j]
    by_cases a : 1 ≤ j ∧ j ≤ p
    · rw [if_pos a, if_pos (by omega), getD_setD _ _ _ _ hp, if_neg (by omega)]
    · rw [if_neg a, getD_setD _ _ _ _ hp]
      by_cases e : j = p + 1
      · rw [if_pos e, if_pos (by omega), e]; rfl
      · rw [if_neg e, if_neg (by omega)]

/-- The block of positions of `v` ends where the block of any larger value starts. -/
theorem lt_add_count_le (values : List Int) {v w : Nat} (h : v < w) :
    lt values v + values.count (v : Int) ≤ lt values w := by
  rw [← lt_succ]
  exact lt_mono values h

theorem placeLoop_spec (values : List Int) (hr : InRange values)
    (hn : (values.length : Int) ≤ INT_MAX) :
    ∀ (rem r : Nat) (c a : Array Int), r + rem = values.length → c.size = MAX →
      a.size = values.length →
      (∀ j : Nat, j < MAX →
        c.getD j 0 = ((lt values j + (values.take r).count (j : Int) : Nat) : Int)) →
      (∀ v : Nat, v < MAX → ∀ i, i < (values.take r).count (v : Int) →
        a.getD (lt values v + i) 0 = (v : Int)) →
      ∃ a1, placeLoop values rem r c a = some a1 ∧ a1.size = values.length ∧
        ∀ v : Nat, v < MAX → ∀ i, i < values.count (v : Int) →
          a1.getD (lt values v + i) 0 = (v : Int)
  | 0, r, c, a, hk, _, ha, _, hA => by
    refine ⟨a, rfl, ha, fun v hv i hi => hA v hv i ?_⟩
    rw [List.take_of_length_le (by omega)]; exact hi
  | rem + 1, r, c, a, hk, hs, ha, hc, hA => by
    have hlt : r < values.length := by omega
    obtain ⟨hv0, hvM⟩ := hr values[r] (List.getElem_mem _)
    have hnat : (values[r].toNat : Int) = values[r] := Int.toNat_of_nonneg hv0
    have hvn : values[r].toNat < MAX := by omega
    have hb : ¬ (values[r] < 0 ∨ (c.size : Int) ≤ values[r]) := by rw [hs]; omega
    have hcv := hc values[r].toNat hvn
    rw [hnat] at hcv
    have hcl := count_take_lt values r hlt
    have hblock : lt values values[r].toNat + values.count values[r] ≤ values.length := by
      have h1 := lt_succ values values[r].toNat
      rw [hnat] at h1
      have h2 := lt_le_length values (values[r].toNat + 1)
      omega
    have hidx : (c.getD values[r].toNat 0).toNat =
        lt values values[r].toNat + (values.take r).count values[r] := by
      rw [hcv]; exact Int.toNat_ofNat _
    have hb2 : ¬ (c.getD values[r].toNat 0 < 0 ∨ (a.size : Int) ≤ c.getD values[r].toNat 0) := by
      rw [hcv, ha]; omega
    have ho : ¬ (INT_MAX ≤ c.getD values[r].toNat 0) := by
      rw [hcv]; omega
    rw [placeLoop, List.getElem?_eq_getElem hlt]
    simp only [if_neg hb, if_neg hb2, if_neg ho]
    apply placeLoop_spec values hr hn rem (r + 1) _ _ (by omega) (by simpa using hs)
      (by simpa using ha)
    · intro j hj
      rw [getD_setD _ _ _ _ (by omega), count_take_succ values r hlt]
      by_cases e : j = values[r].toNat
      · have e2 : values[r] = (j : Int) := by omega
        rw [if_pos e, if_pos e2, hcv, e, hnat]
        push_cast; omega
      · have e2 : ¬ values[r] = (j : Int) := by omega
        rw [if_neg e, if_neg e2, hc j hj]
        rfl
    · intro v hv i hi
      rw [hidx, getD_setD _ _ _ _ (by omega)]
      rw [count_take_succ values r hlt] at hi
      by_cases e : v = values[r].toNat
      · have e2 : values[r] = (v : Int) := by omega
        rw [if_pos e2] at hi
        by_cases ei : i = (values.take r).count values[r]
        · rw [if_pos (by rw [e, ei]), e2]
        · rw [if_neg (by rw [e]; omega)]
          exact hA v hv i (by rw [e2] at ei; omega)
      · have e2 : ¬ values[r] = (v : Int) := by omega
        rw [if_neg e2] at hi
        have hsub : (values.take r).count (v : Int) ≤ values.count (v : Int) :=
          (List.take_sublist _ _).count_le _
        have hne : lt values v + i ≠
            lt values values[r].toNat + (values.take r).count values[r] := by
          rcases Nat.lt_or_gt_of_ne e with h | h
          · have := lt_add_count_le values h
            omega
          · have := lt_add_count_le values h
            rw [hnat] at this
            omega
        rw [if_neg hne]
        exact hA v hv i (by omega)

theorem copyLoop_spec (a : Array Int) :
    ∀ (rem t : Nat) (vals : List Int), t + rem = vals.length → vals.length = a.size →
      ∃ out, copyLoop a rem t vals = some out ∧ out.length = vals.length ∧
        (∀ i, t ≤ i → i < vals.length → out[i]? = some (a.getD i 0)) ∧
        ∀ i, i < t → out[i]? = vals[i]?
  | 0, t, vals, _, _ => ⟨vals, rfl, rfl, fun i h1 h2 => by omega, fun _ _ => rfl⟩
  | rem + 1, t, vals, ht, ha => by
    have hc : t < vals.length ∧ t < a.size := by omega
    obtain ⟨out, h1, h2, h3, h4⟩ := copyLoop_spec a rem (t + 1) (vals.set t (a.getD t 0))
      (by rw [List.length_set]; omega) (by rw [List.length_set]; exact ha)
    rw [List.length_set] at h2 h3
    rw [copyLoop, if_pos hc]
    refine ⟨out, h1, h2, fun i hi1 hi2 => ?_, fun i hi => ?_⟩
    · by_cases e : i = t
      · rw [h4 i (by omega), e, List.getElem?_set_self hc.1]
      · exact h3 i (by omega) hi2
    · rw [h4 i (by omega), List.getElem?_set_ne (by omega)]

theorem canon_mem (values : List Int) :
    ∀ (m : Nat) (x : Int), x ∈ canon values m → 0 ≤ x ∧ x < (m : Int)
  | 0, x, h => by simp [canon] at h
  | m + 1, x, h => by
    rw [canon, List.mem_append] at h
    rcases h with h | h
    · have := canon_mem values m x h
      omega
    · have := (List.mem_replicate.mp h).2
      omega

theorem canon_sorted (values : List Int) :
    ∀ m : Nat, List.Sorted (fun a b => a ≤ b) (canon values m)
  | 0 => by simp [canon]
  | m + 1 => by
    rw [canon]
    refine List.pairwise_append.mpr ⟨canon_sorted values m, ?_, fun a ha b hb => ?_⟩
    · exact List.pairwise_replicate.mpr (Or.inr (Int.le_refl _))
    · have h1 := canon_mem values m a ha
      have h2 := (List.mem_replicate.mp hb).2
      omega

theorem canon_count (values : List Int) (x : Int) :
    ∀ m : Nat, (canon values m).count x = if 0 ≤ x ∧ x < (m : Int) then values.count x else 0
  | 0 => by
    rw [canon, if_neg (by omega)]; rfl
  | m + 1 => by
    rw [canon, List.count_append, canon_count values x m, List.count_replicate]
    simp only [beq_iff_eq]
    split_ifs <;> first | omega | (rename_i hB _; subst hB; omega)

theorem canon_perm (values : List Int) (hr : InRange values) :
    (canon values MAX).Perm values := by
  rw [List.perm_iff_count]
  intro x
  rw [canon_count]
  by_cases a : 0 ≤ x ∧ x < (MAX : Int)
  · rw [if_pos a]
  · rw [if_neg a]
    symm
    rw [List.count_eq_zero]
    exact fun hx => a (hr x hx)

/-- A list that holds each value at the positions of its block is the canonical one. -/
theorem take_eq_canon (values out : List Int) (hr : InRange values)
    (hl : out.length = values.length)
    (H : ∀ v : Nat, v < MAX → ∀ i, i < values.count (v : Int) →
      out[lt values v + i]? = some (v : Int)) :
    ∀ m : Nat, m ≤ MAX → out.take (lt values m) = canon values m
  | 0, _ => by rw [lt_zero values hr, canon]; rfl
  | m + 1, hm => by
    have ih := take_eq_canon values out hr hl H m (by omega)
    have hblock : lt values m + values.count (m : Int) ≤ values.length := by
      rw [← lt_succ]; exact lt_le_length values _
    rw [lt_succ, List.take_add, ih, canon]
    congr 1
    rw [List.eq_replicate_iff]
    constructor
    · rw [List.length_take, List.length_drop, hl]; omega
    · intro b hb
      obtain ⟨i, hi⟩ := List.mem_iff_getElem?.mp hb
      rw [List.getElem?_take] at hi
      by_cases hlt : i < values.count (m : Int)
      · rw [if_pos hlt, List.getElem?_drop, H m (by omega) i hlt] at hi
        exact (Option.some.inj hi).symm
      · rw [if_neg hlt] at hi; cases hi

/-- The counting sort of `countsort.c` produces the canonical sorted list. -/
theorem sort_eq_canon (junk : Nat → Int) (values : List Int) (hr : InRange values)
    (hn : (values.length : Int) ≤ INT_MAX) :
    sort junk values values.length = some (canon values MAX) := by
  have hM : MAX = 65536 := rfl
  obtain ⟨c1, e1, s1, h1⟩ := countLoop_spec values hr hn values.length 0 (mkArray MAX 0)
    (by omega) (by simp) (fun j => by rw [getD_mkArray]; simp)
  obtain ⟨c2, e2, s2, h2⟩ := sumLoop_spec values hn (MAX - 1) 1 c1 (Nat.le_refl _) (by omega) s1
    (fun j hj => by
      have e : j = 0 := by omega
      rw [h1 j, e, lt_succ, lt_zero values hr]; simp)
    (fun j _ => h1 j)
  obtain ⟨t1, t2⟩ := shiftLoop_spec (MAX - 1) c2 (by omega)
  have s3 : ((shiftLoop (MAX - 1) c2).setD 0 0).size = MAX := by
    rw [Array.size_setD, t1, s2]
  have h3 : ∀ j : Nat, j < MAX →
      ((shiftLoop (MAX - 1) c2).setD 0 0).getD j 0 =
        ((lt values j + (values.take 0).count (j : Int) : Nat) : Int) := by
    intro j hj
    rw [getD_setD _ _ _ _ (by omega)]
    by_cases e : j = 0
    · rw [if_pos e, e, lt_zero values hr]; simp
    · rw [if_neg e, t2 j, if_pos (by omega), h2 (j - 1) (by omega)]
      have e3 : j - 1 + 1 = j := by omega
      rw [e3]; simp
  obtain ⟨a, e4, s4, h4⟩ := placeLoop_spec values hr hn values.length 0 _
    (Array.ofFn (fun i : Fin values.length => junk i)) (by omega) s3 (by simp) h3
    (fun v _ i hi => by simp at hi)
  obtain ⟨out, e5, l5, h5, _⟩ := copyLoop_spec a values.length 0 values (by omega) s4.symm
  have H : ∀ v : Nat, v < MAX → ∀ i, i < values.count (v : Int) →
      out[lt values v + i]? = some (v : Int) := by
    intro v hv i hi
    have hb : lt values v + values.count (v : Int) ≤ values.length := by
      rw [← lt_succ]; exact lt_le_length values _
    rw [h5 _ (Nat.zero_le _) (by omega), h4 v hv i hi]
  have hT := take_eq_canon values out hr l5 H MAX (Nat.le_refl _)
  rw [lt_MAX values hr, ← l5, List.take_length] at hT
  rw [sort, e1]
  simp only [e2, e4, e5, hT]

/-- C13: for every array `values` of `n` ints (`n` an `int`), each in `[0, 65536)`,
`sort(values, n)` runs without leaving the arrays and leaves `values` in non-decreasing
order, a permutation of what it held before: the reference sort of the input.  What the
uninitialised `newArr` held does not matter. -/
theorem sort_sorts (junk : Nat → Int) (values : List Int)
    (hr : ∀ v ∈ values, 0 ≤ v ∧ v < 65536) (hn : values.length ≤ 2147483647) :
    ∃ out, sort junk values values.length = some out ∧
      List.Sorted (fun a b => a ≤ b) out ∧ out.Perm values ∧
      out = values.insertionSort (fun a b => a ≤ b) := by
  have hr1 : InRange values := fun v hv => by
    have := hr v hv
    unfold MAX
    omega
  have hn1 : (values.length : Int) ≤ INT_MAX := by unfold INT_MAX; omega
  refine ⟨canon values MAX, sort_eq_canon junk values hr1 hn1, canon_sorted values MAX,
    canon_perm values hr1, ?_⟩
  exact List.eq_of_perm_of_sorted
    ((canon_perm values hr1).trans (List.perm_insertionSort _ values).symm)
    (canon_sorted values MAX) (List.sorted_insertionSort _ values)

/-- C13, on the array `3, 1, 2, 1, 65535, 0`. -/
theorem sort_sorts_witness :
    sort (fun _ => 7) [3, 1, 2, 1, 65535, 0] 6 = some [0, 1, 1, 2, 3, 65535] := by
  obtain ⟨out, h1, _, _, h4⟩ :=
    sort_sorts (fun _ => 7) [3, 1, 2, 1, 65535, 0] (by decide) (by decide)
  have h5 : some out = some [0, 1, 1, 2, 3, 65535] := by rw [h4]; decide
  exact h1.trans h5

end CountSort
